import Mathlib

/-!
Verification of the `concept_map` program (`src/main.rs`).

Shallow embedding conventions:
* Rust `String` is modeled as `List Char` (named `Str`); `str::trim` and
  `str::split(";")` are modeled by `strTrim` and `splitSemi` below.
* `f64` weights and coverages are modeled as `ℚ` (exact arithmetic; the
  program only adds these values, and addition on the model is
  order-independent, matching sums over hash sets).
* `HashMap<String, usize>` is modeled as an association list with
  insert-at-front (newest binding shadows older ones, like `HashMap::insert`);
  `HashSet<String>` is modeled as a duplicate-free `List Str` used only
  through set operations (membership, insert, remove, size, union), so the
  model's list order carries no information the program depends on.
* The accumulated error string is modeled as a list of structured
  diagnostics `Diag`, one entry per pushed message, carrying exactly the data
  interpolated into the message templates.
* The unbounded recursion of `solve_dependency_transitive_closure` is modeled
  with a fuel parameter returning `Option`: `none` means the recursion depth
  exceeded the fuel, i.e. the Rust code would still be recursing at that
  depth.  On validated acyclic graphs the fuel bound used by `solve` is
  proven sufficient; on cyclic graphs the result is `none` for every fuel.
* The dot-graph rendering (`graph()`, `graph_name`, colors) is outside the
  embedded core: it is pure output formatting and no claim refers to it.
-/

namespace CMap

/-- Rust `String`, modeled as a list of characters. -/
abbrev Str := List Char

/-- Model of Rust `str::trim`: drop whitespace from both ends. -/
def strTrim (s : Str) : Str :=
  ((s.dropWhile Char.isWhitespace).reverse.dropWhile Char.isWhitespace).reverse

/-- Model of Rust `str::split(";")` (the separator is the single char `;`):
splits into the (possibly empty) tokens between separators.  The empty string
yields one empty token, and a trailing separator yields a trailing empty
token, exactly as in Rust. -/
def splitSemi : Str → List Str
  | [] => [[]]
  | ch :: rest =>
    if ch = ';' then [] :: splitSemi rest
    else
      match splitSemi rest with
      | [] => [[ch]]
      | t :: ts => (ch :: t) :: ts

/-- Association-list lookup keyed by `Str`; the first (most recently
inserted) binding wins, matching `HashMap` lookup after `insert`
overwrites. -/
def alookup {β : Type} : List (Str × β) → Str → Option β
  | [], _ => none
  | (k, v) :: rest, n => if k = n then some v else alookup rest n

/-- `HashSet::insert` on the list model of a string set. -/
def sinsert (s : List Str) (n : Str) : List Str :=
  if n ∈ s then s else s ++ [n]

/-- `HashSet::remove` on the list model of a string set. -/
def serase : List Str → Str → List Str
  | [], _ => []
  | a :: rest, n => if a = n then rest else a :: serase rest n

/-- Set union (`HashSet::union`) on the list model: insert every element of
the second set into the first. -/
def sunion (a b : List Str) : List Str :=
  b.foldl sinsert a

/-- `collect::<HashSet<_>>()` on the list model: deduplicate. -/
def sdedup (l : List Str) : List Str :=
  l.foldl sinsert []

/-- One structured diagnostic, corresponding to one message pushed onto the
`errors` string in the source (`main.rs` lines 222, 260, 303). -/
inductive Diag where
  /-- "Found redundant copy of concept NAME in record NEW (redundant with
  record ORIG). Ignoring concept entry." -/
  | redundant (name : Str) (newRecord : Nat) (origRecord : Nat)
  /-- "Dependency on DEP in concept NAME in record REC does not correspond
  to a concept. Ignoring dependency." -/
  | dangling (dep : Str) (inConcept : Str) (record : Nat)
  /-- "Circular conceptual dependencies including (or depended on by)
  COUNT concepts: STUCK." -/
  | circular (count : Nat) (stuck : List Str)
  deriving DecidableEq

/-- `TimeRange` from `main.rs` lines 323-328. -/
structure TimeRange where
  start : ℚ
  earliest_start : ℚ
  latest_end : ℚ
  deriving Inhabited, DecidableEq

/-- `Modality` from `main.rs` lines 330-335. -/
structure Modality where
  range : TimeRange
  weight : ℚ
  coverage : ℚ
  deriving Inhabited, DecidableEq

/-- `Modality::new` from `main.rs` lines 337-349: note `coverage` is always
initialized to `0.0`. -/
def Modality.new (weight : ℚ) (r : Option TimeRange) : Modality :=
  { range := r.getD { start := 0, earliest_start := 0, latest_end := 0 }
    weight := weight
    coverage := 0 }

/-- `ConceptRecord` from `main.rs` lines 8-28 (one deserialized CSV row). -/
structure ConceptRecord where
  concept : Str
  dependencies : Str
  category : Option Str := none
  week : Option Nat := none
  earliest : Option Nat := none
  latest : Option Nat := none
  lecture_weight : Option ℚ := none
  lab_weight : Option ℚ := none
  hw_weight : Option ℚ := none
  lecture_coverage : Option ℚ := none
  lab_coverage : Option ℚ := none
  hw_coverage : Option ℚ := none

/-- `Concept` from `main.rs` lines 351-360.  The render-only `graph_name`
string field is omitted (it is written only for dot output). -/
structure Concept where
  concept : Str
  category : Str
  line : Nat
  offset : Nat
  dependencies : List Str
  modes : Fin 3 → Modality
  deriving Inhabited

/-- `Concept::new` from `main.rs` lines 363-382: trims the name and the
category, stores the given `line`, and builds the three modalities from the
per-mode weights (coverages from the record are not used). -/
def Concept.new (r : ConceptRecord) (line : Nat) : Concept :=
  { concept := strTrim r.concept
    category := strTrim (r.category.getD [])
    line := line
    offset := 0
    dependencies := []
    modes := fun i =>
      if i = 0 then Modality.new (r.lecture_weight.getD 0) none
      else if i = 1 then Modality.new (r.lab_weight.getD 0) none
      else Modality.new (r.hw_weight.getD 0) none }

/-- `ConceptMap` from `main.rs` lines 32-40. -/
structure ConceptMap where
  nconcepts : Nat
  concepts : List Concept
  lookup : List (Str × Nat)
  dependency_order : List Str
  errors : List Diag
  total_weights : Fin 3 → ℚ

/-- `ConceptMap::new` from `main.rs` lines 43-52. -/
def ConceptMap.new : ConceptMap :=
  { nconcepts := 0
    concepts := []
    lookup := []
    dependency_order := []
    errors := []
    total_weights := fun _ => 0 }

/-- `ConceptMap::errs` from `main.rs` lines 54-60. -/
def ConceptMap.errs (m : ConceptMap) : Option (List Diag) :=
  if m.errors = [] then none else some m.errors

/-- `ConceptMap::dependency_to_concept` from `main.rs` lines 62-65.  The
source unwraps the lookup and indexes the vector; the model returns
`default` on the (proven unreachable) failure paths. -/
def ConceptMap.dependency_to_concept (m : ConceptMap) (n : Str) : Concept :=
  match alookup m.lookup n with
  | some idx => m.concepts.getD idx default
  | none => default

/-- `ConceptMapBuilder::add` from `main.rs` lines 218-249.  Note two
source behaviors kept faithfully: the duplicate check looks up the *raw*
record name `c.concept` (the stored keys are trimmed names), and the line
stored in the new concept is `nconcepts + 1` where `nconcepts` was already
incremented for this record. -/
def ConceptMapBuilder.add (m : ConceptMap) (c : ConceptRecord) : ConceptMap :=
  let m1 := { m with nconcepts := m.nconcepts + 1 }
  match alookup m1.lookup c.concept with
  | some redundant =>
      { m1 with errors := m1.errors ++
          [Diag.redundant c.concept m1.nconcepts
            ((m1.concepts.getD redundant default).line)] }
  | none =>
      let c0 := Concept.new c (m1.nconcepts + 1)
      let deps := (splitSemi c.dependencies).foldl
        (fun a d => if d ≠ [] then a ++ [strTrim d] else a) []
      let c1 := { c0 with dependencies := deps }
      let offset := m1.concepts.length
      let c2 := { c1 with offset := offset }
      { m1 with lookup := (c2.concept, offset) :: m1.lookup,
                concepts := m1.concepts ++ [c2] }

/-- Folding `add` over a record list (the ingestion loop of `main`,
`main.rs` lines 397-401). -/
def ConceptMapBuilder.addAll (records : List ConceptRecord) : ConceptMap :=
  records.foldl ConceptMapBuilder.add ConceptMap.new

/-- Step A of `ConceptMapBuilder::validate` (`main.rs` lines 255-266) for a
single concept: keep each dependency that resolves in the lookup, emit one
dangling diagnostic per dropped occurrence, in original order. -/
def resolveOne (lookup : List (Str × Nat)) (c : Concept) : Concept × List Diag :=
  let r := c.dependencies.foldl
    (fun (a : List Str × List Diag) d =>
      match alookup lookup d with
      | none => (a.1, a.2 ++ [Diag.dangling d c.concept c.line])
      | some _ => (a.1 ++ [d], a.2))
    ([], [])
  ({ c with dependencies := r.1 }, r.2)

/-- Step A of `validate` over all concepts: the pruned concept list and the
dangling diagnostics in emission order. -/
def pruneConcepts (m : ConceptMap) : List Concept × List Diag :=
  m.concepts.foldl
    (fun acc c =>
      let r := resolveOne m.lookup c
      (acc.1 ++ [r.1], acc.2 ++ r.2))
    ([], [])

/-- The frontier test of `validate` (`main.rs` lines 278-289): a pending
concept is on the frontier iff none of its dependencies is still pending. -/
def onFrontier (c : Concept) (pending : List Str) : Bool :=
  c.dependencies.all fun d => decide (d ∉ pending)

/-- One full pass of the frontier-peeling loop (`main.rs` lines 277-296):
scan the concepts in storage order against the live pending set, moving each
frontier concept into the order and out of the pending set. -/
def validatePassGo :
    List Concept → List Str → List Str → Bool → List Str × List Str × Bool
  | [], order, pending, shrunk => (order, pending, shrunk)
  | c :: cs, order, pending, shrunk =>
    if c.concept ∈ pending then
      if onFrontier c pending then
        validatePassGo cs (order ++ [c.concept]) (serase pending c.concept) true
      else validatePassGo cs order pending shrunk
    else validatePassGo cs order pending shrunk

/-- The outer `loop` of `validate` (`main.rs` lines 274-301): repeat passes
until a pass removes nothing or the pending set is empty.  The Rust loop
always terminates within `|pending| + 1` passes (each continuing pass shrinks
the pending set); the fuel argument makes that bound explicit. -/
def validateLoop : Nat → List Concept → List Str → List Str → List Str × List Str
  | 0, _, order, pending => (order, pending)
  | fuel + 1, cs, order, pending =>
    let r := validatePassGo cs order pending false
    if r.2.2 = false ∨ r.2.1.length = 0 then (r.1, r.2.1)
    else validateLoop fuel cs r.1 r.2.1

/-- The initial pending set (`main.rs` lines 269-273): all concept names. -/
def pendingInit (cs : List Concept) : List Str :=
  cs.foldl (fun s c => sinsert s c.concept) []

/-- The topological order and final pending set computed by `validate`
(Step B, `main.rs` lines 268-301). -/
def ConceptMapBuilder.topoResult (m : ConceptMap) : List Str × List Str :=
  let cs := (pruneConcepts m).1
  let pending := pendingInit cs
  validateLoop (pending.length + 1) cs [] pending

/-- `ConceptMapBuilder::validate` from `main.rs` lines 251-315: prune
dangling dependencies, run the frontier-peeling loop, then append the
accumulated diagnostics (dangling ones first, then the single circular one
when the final pending set is non-empty). -/
def ConceptMapBuilder.validate (m : ConceptMap) : ConceptMap :=
  let pr := pruneConcepts m
  let tr := ConceptMapBuilder.topoResult m
  let errsB := if 0 < tr.2.length then [Diag.circular tr.2.length tr.2] else []
  { m with concepts := pr.1,
           dependency_order := m.dependency_order ++ tr.1,
           errors := m.errors ++ pr.2 ++ errsB }

/-- `ConceptMapBuilder::build` from `main.rs` lines 317-321 applied after
the ingestion loop of `main`. -/
def ConceptMapBuilder.build (records : List ConceptRecord) : ConceptMap :=
  ConceptMapBuilder.validate (ConceptMapBuilder.addAll records)

/-- The memo table of `solve_dependency_transitive_closure`:
`HashMap<ConceptName, HashSet<ConceptName>>`. -/
abbrev Memo := List (Str × List Str)

/-- The body of the `for d in ds` loop of
`solve_dependency_transitive_closure` (`main.rs` lines 92-97): recursively
solve the dependency `d` (threading the memo table), then union `d`'s
memoized closure (the source unwraps it; the model defaults to `[]` on the
proven-unreachable missing case) into the running closure.  `none`
propagates a recursive call that exceeded the depth bound. -/
def solveTCFoldStep (recur : Memo → Str → Option Memo)
    (acc : Option (Memo × List Str)) (d : Str) : Option (Memo × List Str) :=
  match acc with
  | none => none
  | some (mm, all) =>
    match recur mm d with
    | none => none
    | some mm2 => some (mm2, sunion all ((alookup mm2 d).getD []))

/-- One unfolding of `ConceptMap::solve_dependency_transitive_closure`
(`main.rs` lines 67-99), parameterized by the function `recur` used for the
recursive calls: memo hit returns immediately; a concept with no
dependencies memoizes the empty set; otherwise the closure starts as the
direct-dependency set and each dependency is solved recursively and its
closure unioned in, after which the result is memoized. -/
def solveTCStep (m : ConceptMap) (recur : Memo → Str → Option Memo)
    (memo : Memo) (n : Str) : Option Memo :=
  match alookup memo n with
  | some _ => some memo
  | none =>
    let ds := (m.dependency_to_concept n).dependencies
    if ds = [] then some ((n, sdedup ds) :: memo)
    else
      match ds.foldl (solveTCFoldStep recur) (some (memo, sdedup ds)) with
      | none => none
      | some r => some ((n, r.2) :: r.1)

/-- `solve_dependency_transitive_closure` with an explicit recursion-depth
bound: `none` means the Rust code would still be recursing past that depth
(the source has no bound at all; `solve` is proven to never hit the bound it
passes when the graph was validated acyclic). -/
def solveTC (m : ConceptMap) : Nat → Memo → Str → Option Memo
  | 0, _, _ => none
  | fuel + 1, memo, n => solveTCStep m (solveTC m fuel) memo n

/-- One step of the first loop of `ConceptMap::solve` (`main.rs` lines
186-189): solve the transitive closure of one concept into the shared memo
table, propagating a depth-bound overflow. -/
def solveClosuresStep (m : ConceptMap) (fuel : Nat)
    (acc : Option Memo) (c : Concept) : Option Memo :=
  match acc with
  | none => none
  | some memo => solveTC m fuel memo c.concept

/-- The first loop of `ConceptMap::solve` (`main.rs` lines 186-189): solve
the transitive closure of every concept into one shared memo table. -/
def ConceptMap.solveClosures (m : ConceptMap) (fuel : Nat) : Option Memo :=
  m.concepts.foldl (solveClosuresStep m fuel) (some [])

/-- `ConceptMap::solve_total_weights` from `main.rs` lines 174-178. -/
def ConceptMap.solve_total_weights (m : ConceptMap) : ConceptMap :=
  { m with total_weights := fun i => (m.concepts.map fun c => (c.modes i).weight).sum }

/-- The per-name primary-weight table of `solve` (`main.rs` lines 182,
188): one insert per concept, later inserts shadowing earlier ones as with
`HashMap::insert`. -/
def solveWeights (m : ConceptMap) : List (Str × ℚ) :=
  m.concepts.foldl (fun w c => (c.concept, (c.modes 0).weight) :: w) []

/-- The `earliest_start` update of one concept in the second loop of
`solve` (`main.rs` lines 191-201): sum the primary-mode weights over the
concept's memoized closure set (the source unwraps both table lookups; the
model defaults on the proven-unreachable missing cases). -/
def solveConceptUpdate (all_deps : Memo) (weights : List (Str × ℚ))
    (c : Concept) : Concept :=
  let all := (alookup all_deps c.concept).getD []
  let es := all.foldl (fun p d => p + (alookup weights d).getD 0) 0
  { c with modes := fun i =>
      if i = 0 then
        { c.modes 0 with range := { (c.modes 0).range with earliest_start := es } }
      else c.modes i }

/-- `ConceptMap::solve` from `main.rs` lines 180-204 (minus the dot
rendering it returns): total weights, then the memoized closures, the
per-name primary weight table, and each concept's `earliest_start`.
`none` models the unbounded recursion on a graph that failed validation. -/
def ConceptMap.solve (m : ConceptMap) : Option ConceptMap :=
  let m1 := m.solve_total_weights
  match m1.solveClosures (m1.concepts.length + 1) with
  | none => none
  | some all_deps =>
    some { m1 with
      concepts := m1.concepts.map (solveConceptUpdate all_deps (solveWeights m1)) }

/-- The program run on a record list: ingestion, validation, then `solve`
unconditionally (`main`, `main.rs` lines 393-412, calls `m.solve()` whether
or not `m.errs()` reported diagnostics). -/
def mainSolve (records : List ConceptRecord) : Option ConceptMap :=
  (ConceptMapBuilder.build records).solve

/-- Spec-side dependency-edge relation on names: `a` depends directly on `b`
iff some concept named `a` lists `b` among its dependencies. -/
def dependsOn (cs : List Concept) (a b : Str) : Prop :=
  ∃ c ∈ cs, c.concept = a ∧ b ∈ c.dependencies

instance (cs : List Concept) (a b : Str) : Decidable (dependsOn cs a b) :=
  decidable_of_iff (∃ c ∈ cs, c.concept = a ∧ b ∈ c.dependencies) Iff.rfl

/-- Index of the first occurrence of `n` in `l` (length of `l` when
absent). -/
def rankIn : List Str → Str → Nat
  | [], _ => 0
  | a :: rest, n => if a = n then 0 else rankIn rest n + 1

/-- The per-concept topological-order contract: whenever a concept's name
has been placed in the order, each of its dependencies was placed strictly
earlier (`rankIn order n` is the position of `n` in the duplicate-free
`order`). -/
def RankOrdered (cs : List Concept) (order : List Str) : Prop :=
  ∀ c ∈ cs, c.concept ∈ order → ∀ d ∈ c.dependencies,
    d ∈ order ∧ rankIn order d < rankIn order c.concept

/-- A name lying on a dependency cycle. -/
def CycName (cs : List Concept) (n : Str) : Prop :=
  Relation.TransGen (dependsOn cs) n n

/-- Invariant of the frontier-peeling loop state relative to the set of all
concept names. -/
def LoopState (names : List Str) (order : List Str) (pending : List Str) : Prop :=
  order.Nodup ∧ pending.Nodup ∧ (∀ n ∈ order, n ∈ names) ∧ (∀ n ∈ order, n ∉ pending) ∧
    (∀ n ∈ names, n ∈ order ∨ n ∈ pending) ∧ (∀ n ∈ pending, n ∈ names)

/-- Spec of a memoized closure entry: exactly the names reachable from `n`
in one or more dependency steps. -/
def ClosureSpec (cs : List Concept) (n : Str) (S : List Str) : Prop :=
  S.Nodup ∧ ∀ x, x ∈ S ↔ Relation.TransGen (dependsOn cs) n x

/-- Every entry of the memo table satisfies its closure spec. -/
def MemoGood (cs : List Concept) (memo : Memo) : Prop :=
  ∀ k S, alookup memo k = some S → ClosureSpec cs k S

/-- Memo extension: every entry of the first table survives in the second. -/
def MemoLe (memo memo2 : Memo) : Prop :=
  ∀ k S, alookup memo k = some S → alookup memo2 k = some S

/-- Soundness of the name→position lookup: every stored position indexes the
concept list and the concept at that position carries exactly the looked-up
name (the safety contract behind `dependency_to_concept`'s unwrap and
indexing). -/
def LookupSound (m : ConceptMap) : Prop :=
  ∀ k i, alookup m.lookup k = some i →
    i < m.concepts.length ∧ (m.concepts.getD i default).concept = k

/-- Every concept's name is a key of the lookup. -/
def NamesKeyed (m : ConceptMap) : Prop :=
  ∀ c ∈ m.concepts, (alookup m.lookup c.concept).isSome = true

/-- Recognizer for the circular-dependency diagnostic. -/
def isCircularDiag : Diag → Bool
  | Diag.circular _ _ => true
  | _ => false

/-! ### Concrete inputs used by witnesses, counterexamples and bug reports -/

/-- Record `A` depending on `B`, primary weight 1. -/
def recA : ConceptRecord :=
  { concept := ['A'], dependencies := ['B'], lecture_weight := some 1 }

/-- Record `B` with no dependencies, primary weight 2. -/
def recB : ConceptRecord :=
  { concept := ['B'], dependencies := [], lecture_weight := some 2 }

/-- A two-record acyclic input: `A` depends on `B`. -/
def chainRecs : List ConceptRecord := [recA, recB]

/-- Whitespace-duplicate scenario: record 1 `A` (no dependencies), record 2
`" A"` (trims to `A`, depends on `B`), record 3 `B` (weight 1). -/
def dupRecs : List ConceptRecord :=
  [{ concept := ['A'], dependencies := [] },
   { concept := [' ', 'A'], dependencies := ['B'] },
   { concept := ['B'], dependencies := [], lecture_weight := some 1 }]

/-- Whitespace duplicate with a name-level cycle: `A`, `" A"` → `B`,
`B` → `A`. -/
def dupCycRecs : List ConceptRecord :=
  [{ concept := ['A'], dependencies := [] },
   { concept := [' ', 'A'], dependencies := ['B'] },
   { concept := ['B'], dependencies := ['A'] }]

/-- Two mutually dependent records: `A` → `B` → `A`. -/
def cycRecs : List ConceptRecord :=
  [{ concept := ['A'], dependencies := ['B'] },
   { concept := ['B'], dependencies := ['A'] }]

/-- A single record named `A` with no dependencies. -/
def oneARec : ConceptRecord := { concept := ['A'], dependencies := [] }

/-- The same name `A` in records 1 and 2. -/
def twoARecs : List ConceptRecord :=
  [{ concept := ['A'], dependencies := [] },
   { concept := ['A'], dependencies := [] }]

/-- Record 1 `A`, record 2 `" A"` (same trimmed name, different raw name). -/
def padARecs : List ConceptRecord :=
  [{ concept := ['A'], dependencies := [] },
   { concept := [' ', 'A'], dependencies := [] }]

/-- Record whose dependency field is a single space (one whitespace-only
token). -/
def spaceDepRec : ConceptRecord := { concept := ['A'], dependencies := [' '] }

/-- One record with a dangling dependency `X`. -/
def danglingRecs : List ConceptRecord :=
  [{ concept := ['A'], dependencies := ['X'] }]

/-- Record carrying nonzero coverage values. -/
def covRec : ConceptRecord :=
  { concept := ['A'], dependencies := [], lecture_coverage := some 5,
    lab_coverage := some 7, hw_coverage := some 9 }

/-- The mutually-cyclic graph as built and validated. -/
def cycMv : ConceptMap := ConceptMapBuilder.build cycRecs

/-! ### Lemmas about the list-set and association-list primitives -/

theorem mem_sinsert {s : List Str} {n x : Str} :
    x ∈ sinsert s n ↔ x ∈ s ∨ x = n := by
  unfold sinsert
  by_cases h : n ∈ s
  · simp only [if_pos h, List.mem_append]
    constructor
    · exact Or.inl
    · rintro (hx | rfl)
      · exact hx
      · exact h
  · simp [if_neg h]

theorem sinsert_nodup {s : List Str} {n : Str} (h : s.Nodup) :
    (sinsert s n).Nodup := by
  unfold sinsert
  by_cases hn : n ∈ s
  · simpa [if_pos hn]
  · simp [if_neg hn, List.nodup_append, h, hn]

theorem mem_of_mem_serase {s : List Str} {n x : Str} (h : x ∈ serase s n) : x ∈ s := by
  induction s with
  | nil => simpa [serase] using h
  | cons a rest ih =>
    by_cases ha : a = n
    · simp only [serase, if_pos ha] at h
      exact List.mem_cons_of_mem _ h
    · simp only [serase, if_neg ha, List.mem_cons] at h
      rcases h with rfl | h
      · exact List.mem_cons_self _ _
      · exact List.mem_cons_of_mem _ (ih h)

theorem mem_serase_of_ne {s : List Str} {n x : Str} (hx : x ∈ s) (hne : x ≠ n) :
    x ∈ serase s n := by
  induction s with
  | nil => simpa using hx
  | cons a rest ih =>
    by_cases ha : a = n
    · simp only [serase, if_pos ha]
      rcases List.mem_cons.mp hx with rfl | h
      · exact absurd ha hne
      · exact h
    · simp only [serase, if_neg ha, List.mem_cons]
      rcases List.mem_cons.mp hx with rfl | h
      · exact Or.inl rfl
      · exact Or.inr (ih h)

theorem serase_nodup {s : List Str} {n : Str} (h : s.Nodup) : (serase s n).Nodup := by
  induction s with
  | nil => simpa [serase] using h
  | cons a rest ih =>
    rcases List.nodup_cons.mp h with ⟨ha, hrest⟩
    by_cases han : a = n
    · simpa [serase, if_pos han] using hrest
    · simp only [serase, if_neg han]
      exact List.nodup_cons.mpr ⟨fun hmem => ha (mem_of_mem_serase hmem), ih hrest⟩

theorem not_mem_serase_self {s : List Str} {n : Str} (h : s.Nodup) :
    n ∉ serase s n := by
  induction s with
  | nil => simp [serase]
  | cons a rest ih =>
    rcases List.nodup_cons.mp h with ⟨ha, hrest⟩
    by_cases han : a = n
    · subst han
      simpa [serase] using ha
    · simp only [serase, if_neg han, List.mem_cons, not_or]
      exact ⟨fun hc => han hc.symm, ih hrest⟩

theorem length_serase_of_mem {s : List Str} {n : Str} (h : n ∈ s) :
    (serase s n).length + 1 = s.length := by
  induction s with
  | nil => simp at h
  | cons a rest ih =>
    by_cases han : a = n
    · simp [serase, if_pos han]
    · rcases List.mem_cons.mp h with rfl | hmem
      · exact absurd rfl han
      · simp only [serase, if_neg han, List.length_cons]
        rw [← ih hmem]

theorem length_serase_le {s : List Str} {n : Str} :
    (serase s n).length ≤ s.length := by
  induction s with
  | nil => simp [serase]
  | cons a rest ih =>
    by_cases han : a = n
    · simp [serase, if_pos han]
    · simp only [serase, if_neg han, List.length_cons]
      exact Nat.succ_le_succ ih

theorem mem_sunion {a b : List Str} {x : Str} :
    x ∈ sunion a b ↔ x ∈ a ∨ x ∈ b := by
  induction b generalizing a with
  | nil => simp [sunion]
  | cons h t ih =>
    show x ∈ sunion (sinsert a h) t ↔ _
    rw [ih, mem_sinsert]
    simp only [List.mem_cons]
    tauto

theorem sunion_nodup {a b : List Str} (h : a.Nodup) : (sunion a b).Nodup := by
  induction b generalizing a with
  | nil => simpa [sunion]
  | cons hd t ih =>
    show (sunion (sinsert a hd) t).Nodup
    exact ih (sinsert_nodup h)

theorem mem_sdedup {l : List Str} {x : Str} : x ∈ sdedup l ↔ x ∈ l := by
  have : sdedup l = sunion [] l := rfl
  rw [this, mem_sunion]
  simp

theorem sdedup_nodup {l : List Str} : (sdedup l).Nodup := by
  have : sdedup l = sunion [] l := rfl
  rw [this]
  exact sunion_nodup List.nodup_nil

/-! ### Rank and name lemmas -/

theorem rankIn_lt_length {l : List Str} {n : Str} (h : n ∈ l) :
    rankIn l n < l.length := by
  induction l with
  | nil => simp at h
  | cons a rest ih =>
    by_cases ha : a = n
    · simp [rankIn, if_pos ha]
    · rcases List.mem_cons.mp h with rfl | hm
      · exact absurd rfl ha
      · simp only [rankIn, if_neg ha, List.length_cons]
        exact Nat.succ_lt_succ (ih hm)

theorem rankIn_append_left {l l2 : List Str} {n : Str} (h : n ∈ l) :
    rankIn (l ++ l2) n = rankIn l n := by
  induction l with
  | nil => simp at h
  | cons a rest ih =>
    by_cases ha : a = n
    · simp [rankIn, if_pos ha]
    · rcases List.mem_cons.mp h with rfl | hm
      · exact absurd rfl ha
      · simp only [List.cons_append, rankIn, if_neg ha, List.append_eq]
        rw [ih hm]

theorem rankIn_append_self {l : List Str} {x : Str} (h : x ∉ l) :
    rankIn (l ++ [x]) x = l.length := by
  induction l with
  | nil => simp [rankIn]
  | cons a rest ih =>
    have ha : a ≠ x := by
      rintro rfl
      exact h (List.mem_cons_self a rest)
    simp only [List.cons_append, rankIn, if_neg ha, List.length_cons, List.append_eq]
    rw [ih fun hm => h (List.mem_cons_of_mem a hm)]

theorem rankIn_getElem {l : List Str} {n : Str} (h : n ∈ l) :
    l.get? (rankIn l n) = some n := by
  induction l with
  | nil => simp at h
  | cons a rest ih =>
    by_cases ha : a = n
    · subst ha
      simp [rankIn]
    · rcases List.mem_cons.mp h with rfl | hm
      · exact absurd rfl ha
      · have hx : rankIn (a :: rest) n = rankIn rest n + 1 := by
          simp [rankIn, if_neg ha]
        rw [hx, List.get?_cons_succ]
        exact ih hm

theorem concept_name_inj {cs : List Concept}
    (hN : (cs.map (fun c => c.concept)).Nodup) :
    ∀ c ∈ cs, ∀ c2 ∈ cs, c.concept = c2.concept → c = c2 := by
  induction cs with
  | nil => intro c hc; simp at hc
  | cons a t ih =>
    simp only [List.map_cons, List.nodup_cons] at hN
    obtain ⟨ha, ht⟩ := hN
    intro c hc c2 hc2 hname
    rcases List.mem_cons.mp hc with rfl | hct
    · rcases List.mem_cons.mp hc2 with rfl | hc2t
      · rfl
      · exact absurd (List.mem_map.mpr ⟨c2, hc2t, hname.symm⟩) ha
    · rcases List.mem_cons.mp hc2 with rfl | hc2t
      · exact absurd (List.mem_map.mpr ⟨c, hct, hname⟩) ha
      · exact ih ht c hct c2 hc2t hname

/-! ### Frontier-peeling pass and loop invariants -/

theorem onFrontier_iff {c : Concept} {pending : List Str} :
    onFrontier c pending = true ↔ ∀ d ∈ c.dependencies, d ∉ pending := by
  simp [onFrontier]

theorem mem_foldl_sinsert {cs : List Concept} {a : List Str} {x : Str} :
    x ∈ cs.foldl (fun s c => sinsert s c.concept) a ↔
      x ∈ a ∨ ∃ c ∈ cs, c.concept = x := by
  induction cs generalizing a with
  | nil => simp
  | cons hd t ih =>
    simp only [List.foldl_cons, ih, mem_sinsert, List.exists_mem_cons_iff]
    constructor
    · rintro ((hx | hx) | hx)
      · exact Or.inl hx
      · exact Or.inr (Or.inl hx.symm)
      · exact Or.inr (Or.inr hx)
    · rintro (hx | hx | hx)
      · exact Or.inl (Or.inl hx)
      · exact Or.inl (Or.inr hx.symm)
      · exact Or.inr hx

theorem mem_pendingInit {cs : List Concept} {x : Str} :
    x ∈ pendingInit cs ↔ ∃ c ∈ cs, c.concept = x := by
  unfold pendingInit
  rw [mem_foldl_sinsert]
  simp

theorem pendingInit_nodup {cs : List Concept} : (pendingInit cs).Nodup := by
  unfold pendingInit
  have : ∀ (l : List Concept) (a : List Str), a.Nodup →
      (l.foldl (fun s c => sinsert s c.concept) a).Nodup := by
    intro l
    induction l with
    | nil => intro a h; simpa
    | cons hd t ih => intro a h; exact ih _ (sinsert_nodup h)
  exact this cs [] List.nodup_nil

theorem passGo_loopState {names : List Str} (l : List Concept) :
    ∀ (order pending : List Str) (s : Bool),
      LoopState names order pending →
      LoopState names (validatePassGo l order pending s).1
        (validatePassGo l order pending s).2.1 := by
  induction l with
  | nil => intro order pending s h; exact h
  | cons c cs ih =>
    intro order pending s h
    obtain ⟨h1, h2, h3, h4, h5, h6⟩ := h
    by_cases hp : c.concept ∈ pending
    · by_cases hf : onFrontier c pending = true
      · simp only [validatePassGo, if_pos hp, if_pos hf]
        refine ih _ _ true ⟨?_, serase_nodup h2, ?_, ?_, ?_, ?_⟩
        · refine List.Nodup.append h1 (List.nodup_singleton _) ?_
          intro x hxo hxs
          rcases List.mem_singleton.mp hxs with rfl
          exact h4 _ hxo hp
        · intro n hn
          rcases List.mem_append.mp hn with ho | hs
          · exact h3 n ho
          · rcases List.mem_singleton.mp hs with rfl
            exact h6 _ hp
        · intro n hn hser
          have hnp : n ∈ pending := mem_of_mem_serase hser
          rcases List.mem_append.mp hn with ho | hs
          · exact h4 n ho hnp
          · rcases List.mem_singleton.mp hs with rfl
            exact not_mem_serase_self h2 hser
        · intro n hn
          rcases h5 n hn with ho | hpend
          · exact Or.inl (List.mem_append_left _ ho)
          · by_cases hne : n = c.concept
            · exact Or.inl (List.mem_append_right _ (hne ▸ List.mem_singleton_self _))
            · exact Or.inr (mem_serase_of_ne hpend hne)
        · intro n hn
          exact h6 n (mem_of_mem_serase hn)
      · simp only [validatePassGo, if_pos hp, if_neg hf]
        exact ih _ _ s ⟨h1, h2, h3, h4, h5, h6⟩
    · simp only [validatePassGo, if_neg hp]
      exact ih _ _ s ⟨h1, h2, h3, h4, h5, h6⟩

theorem passGo_inv {csAll : List Concept} {names : List Str}
    (hN : (csAll.map (fun c => c.concept)).Nodup)
    (hDeps : ∀ c ∈ csAll, ∀ d ∈ c.dependencies, d ∈ names) (l : List Concept)
    (hsub : ∀ c ∈ l, c ∈ csAll) :
    ∀ (order pending : List Str) (s : Bool),
      LoopState names order pending → RankOrdered csAll order →
      LoopState names (validatePassGo l order pending s).1
          (validatePassGo l order pending s).2.1 ∧
        RankOrdered csAll (validatePassGo l order pending s).1 := by
  induction l with
  | nil => intro order pending s h hro; exact ⟨h, hro⟩
  | cons c cs ih =>
    intro order pending s h hro
    have hcAll : c ∈ csAll := hsub c (List.mem_cons_self c cs)
    have hsub2 : ∀ c2 ∈ cs, c2 ∈ csAll := fun c2 hc2 => hsub c2 (List.mem_cons_of_mem c hc2)
    obtain ⟨h1, h2, h3, h4, h5, h6⟩ := h
    by_cases hp : c.concept ∈ pending
    · by_cases hf : onFrontier c pending = true
      · simp only [validatePassGo, if_pos hp, if_pos hf]
        have hnotin : c.concept ∉ order := fun ho => h4 _ ho hp
        have hdepsin : ∀ d ∈ c.dependencies, d ∈ order := by
          intro d hd
          rcases h5 d (hDeps c hcAll d hd) with ho | hpend
          · exact ho
          · exact absurd hpend ((onFrontier_iff.mp hf) d hd)
        have hstate : LoopState names (order ++ [c.concept]) (serase pending c.concept) := by
          refine ⟨?_, serase_nodup h2, ?_, ?_, ?_, ?_⟩
          · refine List.Nodup.append h1 (List.nodup_singleton _) ?_
            intro x hxo hxs
            rcases List.mem_singleton.mp hxs with rfl
            exact h4 _ hxo hp
          · intro n hn
            rcases List.mem_append.mp hn with ho | hs
            · exact h3 n ho
            · rcases List.mem_singleton.mp hs with rfl
              exact h6 _ hp
          · intro n hn hser
            have hnp : n ∈ pending := mem_of_mem_serase hser
            rcases List.mem_append.mp hn with ho | hs
            · exact h4 n ho hnp
            · rcases List.mem_singleton.mp hs with rfl
              exact not_mem_serase_self h2 hser
          · intro n hn
            rcases h5 n hn with ho | hpend
            · exact Or.inl (List.mem_append_left _ ho)
            · by_cases hne : n = c.concept
              · exact Or.inl (List.mem_append_right _ (hne ▸ List.mem_singleton_self _))
              · exact Or.inr (mem_serase_of_ne hpend hne)
          · intro n hn
            exact h6 n (mem_of_mem_serase hn)
        have hroNew : RankOrdered csAll (order ++ [c.concept]) := by
          intro c2 hc2 hc2mem d hd
          rcases List.mem_append.mp hc2mem with ho | hs
          · obtain ⟨hdo, hdr⟩ := hro c2 hc2 ho d hd
            refine ⟨List.mem_append_left _ hdo, ?_⟩
            rw [rankIn_append_left hdo, rankIn_append_left ho]
            exact hdr
          · rcases List.mem_singleton.mp hs with heq
            have hc2c : c2 = c := concept_name_inj hN c2 hc2 c hcAll heq
            subst hc2c
            have hdo : d ∈ order := hdepsin d hd
            refine ⟨List.mem_append_left _ hdo, ?_⟩
            rw [rankIn_append_left hdo, heq, rankIn_append_self hnotin]
            exact rankIn_lt_length hdo
        exact ih hsub2 _ _ true hstate hroNew
      · simp only [validatePassGo, if_pos hp, if_neg hf]
        exact ih hsub2 _ _ s ⟨h1, h2, h3, h4, h5, h6⟩ hro
    · simp only [validatePassGo, if_neg hp]
      exact ih hsub2 _ _ s ⟨h1, h2, h3, h4, h5, h6⟩ hro

theorem passGo_cyc {csAll : List Concept}
    (hN : (csAll.map (fun c => c.concept)).Nodup) (l : List Concept)
    (hsub : ∀ c ∈ l, c ∈ csAll) :
    ∀ (order pending : List Str) (s : Bool),
      (∀ n, CycName csAll n → n ∈ pending) →
      ∀ n, CycName csAll n → n ∈ (validatePassGo l order pending s).2.1 := by
  induction l with
  | nil => intro order pending s hprot n hn; exact hprot n hn
  | cons c cs ih =>
    intro order pending s hprot
    have hcAll : c ∈ csAll := hsub c (List.mem_cons_self c cs)
    have hsub2 : ∀ c2 ∈ cs, c2 ∈ csAll := fun c2 hc2 => hsub c2 (List.mem_cons_of_mem c hc2)
    by_cases hp : c.concept ∈ pending
    · by_cases hf : onFrontier c pending = true
      · simp only [validatePassGo, if_pos hp, if_pos hf]
        have hnc : ¬ CycName csAll c.concept := by
          intro hcyc
          rcases Relation.TransGen.head'_iff.mp hcyc with ⟨b, hstep, hrt⟩
          obtain ⟨c2, hc2mem, hc2name, hbdep⟩ := hstep
          have hc2 : c2 = c := concept_name_inj hN c2 hc2mem c hcAll hc2name
          subst hc2
          have hbc : CycName csAll b :=
            Relation.TransGen.trans_right hrt
              (Relation.TransGen.single ⟨c2, hc2mem, hc2name, hbdep⟩)
          exact (onFrontier_iff.mp hf) b hbdep (hprot b hbc)
        refine ih hsub2 _ _ true ?_
        intro n hn
        have hne : n ≠ c.concept := by
          rintro rfl
          exact hnc hn
        exact mem_serase_of_ne (hprot n hn) hne
      · simp only [validatePassGo, if_pos hp, if_neg hf]
        exact ih hsub2 _ _ s hprot
    · simp only [validatePassGo, if_neg hp]
      exact ih hsub2 _ _ s hprot

theorem loop_loopState {names : List Str} (cs : List Concept) (fuel : Nat) :
    ∀ (order pending : List Str),
      LoopState names order pending →
      LoopState names (validateLoop fuel cs order pending).1
        (validateLoop fuel cs order pending).2 := by
  induction fuel with
  | zero => intro o p h; exact h
  | succ f ih =>
    intro o p h
    simp only [validateLoop]
    by_cases hc : (validatePassGo cs o p false).2.2 = false ∨
        (validatePassGo cs o p false).2.1.length = 0
    · rw [if_pos hc]
      exact passGo_loopState cs o p false h
    · rw [if_neg hc]
      exact ih _ _ (passGo_loopState cs o p false h)

theorem loop_inv {csAll : List Concept} {names : List Str}
    (hN : (csAll.map (fun c => c.concept)).Nodup)
    (hDeps : ∀ c ∈ csAll, ∀ d ∈ c.dependencies, d ∈ names) (fuel : Nat) :
    ∀ (order pending : List Str),
      LoopState names order pending → RankOrdered csAll order →
      LoopState names (validateLoop fuel csAll order pending).1
          (validateLoop fuel csAll order pending).2 ∧
        RankOrdered csAll (validateLoop fuel csAll order pending).1 := by
  induction fuel with
  | zero => intro o p h hro; exact ⟨h, hro⟩
  | succ f ih =>
    intro o p h hro
    simp only [validateLoop]
    by_cases hc : (validatePassGo csAll o p false).2.2 = false ∨
        (validatePassGo csAll o p false).2.1.length = 0
    · rw [if_pos hc]
      exact passGo_inv hN hDeps csAll (fun c hc2 => hc2) o p false h hro
    · rw [if_neg hc]
      obtain ⟨h2, hro2⟩ := passGo_inv hN hDeps csAll (fun c hc2 => hc2) o p false h hro
      exact ih _ _ h2 hro2

theorem loop_cyc {csAll : List Concept}
    (hN : (csAll.map (fun c => c.concept)).Nodup) (fuel : Nat) :
    ∀ (order pending : List Str),
      (∀ n, CycName csAll n → n ∈ pending) →
      ∀ n, CycName csAll n → n ∈ (validateLoop fuel csAll order pending).2 := by
  induction fuel with
  | zero => intro o p hprot n hn; exact hprot n hn
  | succ f ih =>
    intro o p hprot
    simp only [validateLoop]
    by_cases hc : (validatePassGo csAll o p false).2.2 = false ∨
        (validatePassGo csAll o p false).2.1.length = 0
    · rw [if_pos hc]
      exact passGo_cyc hN csAll (fun c hc2 => hc2) o p false hprot
    · rw [if_neg hc]
      exact ih _ _ (passGo_cyc hN csAll (fun c hc2 => hc2) o p false hprot)

/-! ### getD helpers -/

theorem getD_append_length {α : Type} (l : List α) (x d : α) :
    (l ++ [x]).getD l.length d = x := by
  induction l with
  | nil => simp [List.getD]
  | cons a t ih => simpa using ih

theorem getD_append_left {α : Type} {l l2 : List α} {i : Nat} (h : i < l.length) (d : α) :
    (l ++ l2).getD i d = l.getD i d := by
  induction l generalizing i with
  | nil => simp at h
  | cons a t ih =>
    cases i with
    | zero => simp
    | succ j =>
      simp only [List.cons_append, List.getD_cons_succ]
      exact ih (Nat.lt_of_succ_lt_succ h) 

theorem getD_mem {α : Type} {l : List α} {i : Nat} (h : i < l.length) (d : α) :
    l.getD i d ∈ l := by
  induction l generalizing i with
  | nil => simp at h
  | cons a t ih =>
    cases i with
    | zero => simp
    | succ j =>
      simp only [List.getD_cons_succ]
      exact List.mem_cons_of_mem a (ih (Nat.lt_of_succ_lt_succ h))

/-! ### Builder invariants: the lookup stays sound through `add` -/

theorem Concept_new_concept (r : ConceptRecord) (line : Nat) :
    (Concept.new r line).concept = strTrim r.concept := rfl

theorem lookupSound_new : LookupSound ConceptMap.new := by
  intro k i h
  simp [ConceptMap.new, alookup] at h

theorem namesKeyed_new : NamesKeyed ConceptMap.new := by
  intro c hc
  simp [ConceptMap.new] at hc

theorem lookupSound_add {m : ConceptMap} {r : ConceptRecord}
    (hs : LookupSound m) : LookupSound (ConceptMapBuilder.add m r) := by
  intro k i h
  cases hl : alookup m.lookup r.concept with
  | some j =>
    simp only [ConceptMapBuilder.add, hl] at h ⊢
    exact hs k i h
  | none =>
    simp only [ConceptMapBuilder.add, hl, alookup, Concept_new_concept] at h ⊢
    by_cases hk : strTrim r.concept = k
    · rw [if_pos hk] at h
      obtain rfl : m.concepts.length = i := by simpa using h
      refine ⟨by simp, ?_⟩
      rw [getD_append_length]
      exact hk
    · rw [if_neg hk] at h
      obtain ⟨hlt, hname⟩ := hs k i h
      refine ⟨by simpa using Nat.lt_succ_of_lt hlt, ?_⟩
      rw [getD_append_left hlt]
      exact hname

theorem namesKeyed_add {m : ConceptMap} {r : ConceptRecord}
    (hk : NamesKeyed m) : NamesKeyed (ConceptMapBuilder.add m r) := by
  intro c hc
  cases hl : alookup m.lookup r.concept with
  | some j =>
    simp only [ConceptMapBuilder.add, hl] at hc ⊢
    exact hk c hc
  | none =>
    simp only [ConceptMapBuilder.add, hl] at hc ⊢
    rcases List.mem_append.mp hc with hold | hnew
    · simp only [alookup, Concept_new_concept]
      by_cases he : strTrim r.concept = c.concept
      · simp [if_pos he]
      · rw [if_neg he]
        exact hk c hold
    · rcases List.mem_singleton.mp hnew with rfl
      simp [alookup, Concept_new_concept]

theorem lookupSound_addAll (records : List ConceptRecord) :
    LookupSound (ConceptMapBuilder.addAll records) := by
  have : ∀ (rs : List ConceptRecord) (m : ConceptMap), LookupSound m →
      LookupSound (rs.foldl ConceptMapBuilder.add m) := by
    intro rs
    induction rs with
    | nil => intro m h; exact h
    | cons r t ih => intro m h; exact ih _ (lookupSound_add h)
  exact this records ConceptMap.new lookupSound_new

theorem namesKeyed_addAll (records : List ConceptRecord) :
    NamesKeyed (ConceptMapBuilder.addAll records) := by
  have : ∀ (rs : List ConceptRecord) (m : ConceptMap), NamesKeyed m →
      NamesKeyed (rs.foldl ConceptMapBuilder.add m) := by
    intro rs
    induction rs with
    | nil => intro m h; exact h
    | cons r t ih => intro m h; exact ih _ (namesKeyed_add h)
  exact this records ConceptMap.new namesKeyed_new

theorem add_dependency_order (m : ConceptMap) (r : ConceptRecord) :
    (ConceptMapBuilder.add m r).dependency_order = m.dependency_order := by
  cases hl : alookup m.lookup r.concept with
  | some j => simp [ConceptMapBuilder.add, hl]
  | none => simp [ConceptMapBuilder.add, hl]

theorem addAll_dependency_order (records : List ConceptRecord) :
    (ConceptMapBuilder.addAll records).dependency_order = [] := by
  have : ∀ (rs : List ConceptRecord) (m : ConceptMap),
      (rs.foldl ConceptMapBuilder.add m).dependency_order = m.dependency_order := by
    intro rs
    induction rs with
    | nil => intro m; rfl
    | cons r t ih => intro m; rw [List.foldl_cons, ih, add_dependency_order]
  exact this records ConceptMap.new

theorem add_errors_no_circular (m : ConceptMap) (r : ConceptRecord) :
    (ConceptMapBuilder.add m r).errors.countP isCircularDiag =
      m.errors.countP isCircularDiag := by
  cases hl : alookup m.lookup r.concept with
  | some j => simp [ConceptMapBuilder.add, hl, List.countP_append, isCircularDiag]
  | none => simp [ConceptMapBuilder.add, hl]

theorem addAll_errors_no_circular (records : List ConceptRecord) :
    (ConceptMapBuilder.addAll records).errors.countP isCircularDiag = 0 := by
  have : ∀ (rs : List ConceptRecord) (m : ConceptMap),
      (rs.foldl ConceptMapBuilder.add m).errors.countP isCircularDiag =
        m.errors.countP isCircularDiag := by
    intro rs
    induction rs with
    | nil => intro m; rfl
    | cons r t ih => intro m; rw [List.foldl_cons, ih, add_errors_no_circular]
  rw [ConceptMapBuilder.addAll, this records ConceptMap.new]
  simp [ConceptMap.new]

/-! ### Step A (dependency pruning) specification -/

theorem resolveOne_spec (lookup : List (Str × Nat)) (c : Concept) :
    (resolveOne lookup c).1 =
        { c with dependencies := c.dependencies.filter fun d => (alookup lookup d).isSome } ∧
      (resolveOne lookup c).2 =
        (c.dependencies.filter fun d => (alookup lookup d).isNone).map
          fun d => Diag.dangling d c.concept c.line := by
  have key : ∀ (ds : List Str) (ks : List Str) (es : List Diag),
      ds.foldl
          (fun (a : List Str × List Diag) d =>
            match alookup lookup d with
            | none => (a.1, a.2 ++ [Diag.dangling d c.concept c.line])
            | some _ => (a.1 ++ [d], a.2))
          (ks, es) =
        (ks ++ ds.filter fun d => (alookup lookup d).isSome,
          es ++ (ds.filter fun d => (alookup lookup d).isNone).map
            fun d => Diag.dangling d c.concept c.line) := by
    intro ds
    induction ds with
    | nil => intro ks es; simp
    | cons d t ih =>
      intro ks es
      cases hl : alookup lookup d with
      | none =>
        simp only [List.foldl_cons, hl, ih, List.filter_cons]
        simp [hl]
      | some v =>
        simp only [List.foldl_cons, hl, ih, List.filter_cons]
        simp [hl]
  constructor
  · show ({ c with dependencies := (c.dependencies.foldl _ ([], [])).1 } : Concept) = _
    rw [key]
    simp
  · show (c.dependencies.foldl _ ([], ([] : List Diag))).2 = _
    rw [key]
    simp

theorem pruneConcepts_spec (m : ConceptMap) :
    (pruneConcepts m).1 = m.concepts.map (fun c => (resolveOne m.lookup c).1) ∧
      (pruneConcepts m).2 =
        (m.concepts.map fun c => (resolveOne m.lookup c).2).flatten := by
  have key : ∀ (cs : List Concept) (ks : List Concept) (es : List Diag),
      cs.foldl
          (fun acc c =>
            let r := resolveOne m.lookup c
            (acc.1 ++ [r.1], acc.2 ++ r.2))
          (ks, es) =
        (ks ++ cs.map (fun c => (resolveOne m.lookup c).1),
          es ++ (cs.map fun c => (resolveOne m.lookup c).2).flatten) := by
    intro cs
    induction cs with
    | nil => intro ks es; simp
    | cons c t ih =>
      intro ks es
      simp only [List.foldl_cons, ih, List.map_cons, List.flatten]
      simp
    
  constructor
  · show (m.concepts.foldl _ (([] : List Concept), ([] : List Diag))).1 = _
    rw [key]
    simp
  · show (m.concepts.foldl _ (([] : List Concept), ([] : List Diag))).2 = _
    rw [key]
    simp

theorem pruned_names (m : ConceptMap) :
    (pruneConcepts m).1.map (fun c => c.concept) = m.concepts.map fun c => c.concept := by
  rw [(pruneConcepts_spec m).1, List.map_map]
  rfl

theorem pruned_length (m : ConceptMap) :
    (pruneConcepts m).1.length = m.concepts.length := by
  rw [(pruneConcepts_spec m).1, List.length_map]

theorem pruned_deps_keyed (m : ConceptMap) :
    ∀ c ∈ (pruneConcepts m).1, ∀ d ∈ c.dependencies,
      (alookup m.lookup d).isSome = true := by
  intro c hc d hd
  rw [(pruneConcepts_spec m).1] at hc
  rcases List.mem_map.mp hc with ⟨c0, hc0, rfl⟩
  rw [(resolveOne_spec m.lookup c0).1] at hd
  simp only [] at hd
  exact List.of_mem_filter (p := fun d => (alookup m.lookup d).isSome) hd

/-! ### `validate` projections -/

theorem validate_concepts (m : ConceptMap) :
    (ConceptMapBuilder.validate m).concepts = (pruneConcepts m).1 := rfl

theorem validate_lookup (m : ConceptMap) :
    (ConceptMapBuilder.validate m).lookup = m.lookup := rfl

theorem validate_order (m : ConceptMap) :
    (ConceptMapBuilder.validate m).dependency_order =
      m.dependency_order ++ (ConceptMapBuilder.topoResult m).1 := rfl

theorem validate_errors (m : ConceptMap) :
    (ConceptMapBuilder.validate m).errors =
      m.errors ++ (pruneConcepts m).2 ++
        (if 0 < (ConceptMapBuilder.topoResult m).2.length then
          [Diag.circular (ConceptMapBuilder.topoResult m).2.length
            (ConceptMapBuilder.topoResult m).2]
        else []) := rfl

/-! ### The frontier loop always reaches its fixed point within the fuel -/

theorem passGo_shrunk_of_shrunk (l : List Concept) :
    ∀ (o p : List Str), (validatePassGo l o p true).2.2 = true := by
  induction l with
  | nil => intro o p; rfl
  | cons c cs ih =>
    intro o p
    by_cases hp : c.concept ∈ p
    · by_cases hf : onFrontier c p = true
      · simp only [validatePassGo, if_pos hp, if_pos hf]
        exact ih _ _
      · simp only [validatePassGo, if_pos hp, if_neg hf]
        exact ih _ _
    · simp only [validatePassGo, if_neg hp]
      exact ih _ _

theorem passGo_stay (l : List Concept) :
    ∀ (o p : List Str), (validatePassGo l o p false).2.2 = false →
      validatePassGo l o p false = (o, p, false) := by
  induction l with
  | nil => intro o p _; rfl
  | cons c cs ih =>
    intro o p hsh
    by_cases hp : c.concept ∈ p
    · by_cases hf : onFrontier c p = true
      · exfalso
        have : (validatePassGo (c :: cs) o p false).2.2 = true := by
          simp only [validatePassGo, if_pos hp, if_pos hf]
          exact passGo_shrunk_of_shrunk cs _ _
        rw [hsh] at this
        exact Bool.false_ne_true this
      · simp only [validatePassGo, if_pos hp, if_neg hf] at hsh ⊢
        exact ih _ _ hsh
    · simp only [validatePassGo, if_neg hp] at hsh ⊢
      exact ih _ _ hsh

theorem passGo_length_le (l : List Concept) :
    ∀ (o p : List Str) (s : Bool), (validatePassGo l o p s).2.1.length ≤ p.length := by
  induction l with
  | nil => intro o p s; exact Nat.le_refl _
  | cons c cs ih =>
    intro o p s
    by_cases hp : c.concept ∈ p
    · by_cases hf : onFrontier c p = true
      · simp only [validatePassGo, if_pos hp, if_pos hf]
        exact Nat.le_trans (ih _ _ _) length_serase_le
      · simp only [validatePassGo, if_pos hp, if_neg hf]
        exact ih _ _ _
    · simp only [validatePassGo, if_neg hp]
      exact ih _ _ _

theorem passGo_length_lt (l : List Concept) :
    ∀ (o p : List Str), (validatePassGo l o p false).2.2 = true →
      (validatePassGo l o p false).2.1.length < p.length := by
  induction l with
  | nil => intro o p h; exact absurd h (by simp [validatePassGo])
  | cons c cs ih =>
    intro o p hsh
    by_cases hp : c.concept ∈ p
    · by_cases hf : onFrontier c p = true
      · simp only [validatePassGo, if_pos hp, if_pos hf]
        calc (validatePassGo cs (o ++ [c.concept]) (serase p c.concept) true).2.1.length
            ≤ (serase p c.concept).length := passGo_length_le _ _ _ _
          _ < p.length := by
              have := length_serase_of_mem hp
              omega
      · simp only [validatePassGo, if_pos hp, if_neg hf] at hsh ⊢
        exact ih _ _ hsh
    · simp only [validatePassGo, if_neg hp] at hsh ⊢
      exact ih _ _ hsh

/-- With fuel exceeding the initial pending size, the loop's result is a true
fixed point: a further pass would remove nothing (or the pending set is
already empty), exactly the state in which the Rust `loop` breaks. -/
theorem loop_fix (cs : List Concept) :
    ∀ (fuel : Nat) (o p : List Str), p.length < fuel →
      (validatePassGo cs (validateLoop fuel cs o p).1
          (validateLoop fuel cs o p).2 false).2.2 = false ∨
        (validateLoop fuel cs o p).2 = [] := by
  intro fuel
  induction fuel with
  | zero => intro o p h; exact absurd h (Nat.not_lt_zero _)
  | succ f ih =>
    intro o p hlen
    simp only [validateLoop]
    by_cases hc : (validatePassGo cs o p false).2.2 = false ∨
        (validatePassGo cs o p false).2.1.length = 0
    · rw [if_pos hc]
      rcases hc with hsh | hemp
      · have hstay := passGo_stay cs o p hsh
        left
        rw [show (validatePassGo cs o p false).1 = o by rw [hstay],
          show (validatePassGo cs o p false).2.1 = p by rw [hstay]]
        exact hsh
      · right
        exact List.length_eq_zero.mp hemp
    · rw [if_neg hc]
      push_neg at hc
      obtain ⟨hsh, hemp⟩ := hc
      have hshT : (validatePassGo cs o p false).2.2 = true := by
        cases hb : (validatePassGo cs o p false).2.2 with
        | false => exact absurd hb hsh
        | true => rfl
      have hlt : (validatePassGo cs o p false).2.1.length < p.length :=
        passGo_length_lt cs o p hshT
      exact ih _ _ (Nat.lt_of_lt_of_le hlt (Nat.le_of_lt_succ hlen))

/-! ### Bridging the code's lookup-based resolution with `dependsOn` -/

theorem alookup_cons {β : Type} (k : Str) (v : β) (rest : List (Str × β)) (n : Str) :
    alookup ((k, v) :: rest) n = if k = n then some v else alookup rest n := rfl

theorem dep_to_concept_eq {m : ConceptMap}
    (hs : LookupSound m) (hk : NamesKeyed m)
    (hN : (m.concepts.map fun c => c.concept).Nodup) :
    ∀ c ∈ m.concepts, m.dependency_to_concept c.concept = c := by
  intro c hc
  have hsome := hk c hc
  cases hl : alookup m.lookup c.concept with
  | none => rw [hl] at hsome; simp at hsome
  | some i =>
    obtain ⟨hlt, hname⟩ := hs _ _ hl
    unfold ConceptMap.dependency_to_concept
    rw [hl]
    exact concept_name_inj hN _ (getD_mem hlt default) c hc hname

theorem deps_of_key {m : ConceptMap} (hs : LookupSound m)
    (hN : (m.concepts.map fun c => c.concept).Nodup) {n : Str} {i : Nat}
    (hl : alookup m.lookup n = some i) (b : Str) :
    b ∈ (m.dependency_to_concept n).dependencies ↔ dependsOn m.concepts n b := by
  obtain ⟨hlt, hname⟩ := hs _ _ hl
  unfold ConceptMap.dependency_to_concept
  rw [hl]
  constructor
  · intro hb
    exact ⟨_, getD_mem hlt default, hname, hb⟩
  · rintro ⟨c, hc, hcn, hb⟩
    have heq : c = m.concepts.getD i default :=
      concept_name_inj hN c hc _ (getD_mem hlt default) (hcn.trans hname.symm)
    show b ∈ (m.concepts.getD i default).dependencies
    rw [← heq]
    exact hb

theorem dependsOn_target {cs : List Concept} {a b : Str} (h : dependsOn cs a b) :
    ∃ c ∈ cs, b ∈ c.dependencies := by
  obtain ⟨c, hc, _, hb⟩ := h
  exact ⟨c, hc, hb⟩

theorem transGen_target {cs : List Concept} {a b : Str}
    (h : Relation.TransGen (dependsOn cs) a b) : ∃ c ∈ cs, b ∈ c.dependencies := by
  rcases Relation.TransGen.tail'_iff.mp h with ⟨x, _, hstep⟩
  exact dependsOn_target hstep

theorem rank_lt_of_dependsOn {cs : List Concept} {order : List Str}
    (hro : RankOrdered cs order) (hcomp : ∀ c ∈ cs, c.concept ∈ order)
    {a b : Str} (h : dependsOn cs a b) :
    b ∈ order ∧ a ∈ order ∧ rankIn order b < rankIn order a := by
  obtain ⟨c, hc, rfl, hb⟩ := h
  have ha := hcomp c hc
  obtain ⟨hbo, hlt⟩ := hro c hc ha b hb
  exact ⟨hbo, ha, hlt⟩

theorem rank_lt_of_transGen {cs : List Concept} {order : List Str}
    (hro : RankOrdered cs order) (hcomp : ∀ c ∈ cs, c.concept ∈ order)
    {a b : Str} (h : Relation.TransGen (dependsOn cs) a b) :
    rankIn order b < rankIn order a := by
  induction h with
  | single hstep => exact (rank_lt_of_dependsOn hro hcomp hstep).2.2
  | tail _ hbc ih => exact Nat.lt_trans (rank_lt_of_dependsOn hro hcomp hbc).2.2 ih

theorem no_self_reach {cs : List Concept} {order : List Str}
    (hro : RankOrdered cs order) (hcomp : ∀ c ∈ cs, c.concept ∈ order) (n : Str) :
    ¬ Relation.TransGen (dependsOn cs) n n :=
  fun h => Nat.lt_irrefl _ (rank_lt_of_transGen hro hcomp h)

/-! ### Memo-table helpers -/

theorem memoLe_refl (memo : Memo) : MemoLe memo memo := fun _ _ h => h

theorem memoLe_trans {m1 m2 m3 : Memo} (h12 : MemoLe m1 m2) (h23 : MemoLe m2 m3) :
    MemoLe m1 m3 := fun k S h => h23 k S (h12 k S h)

theorem memoLe_cons_of_none {memo mm2 : Memo} {n : Str} {S : List Str}
    (hle : MemoLe memo mm2) (hn : alookup memo n = none) :
    MemoLe memo ((n, S) :: mm2) := by
  intro k S2 h
  rw [alookup_cons]
  by_cases hkn : n = k
  · rw [← hkn] at h
    rw [hn] at h
    exact absurd h (by simp)
  · rw [if_neg hkn]
    exact hle k S2 h

theorem memoGood_cons {cs : List Concept} {memo : Memo} {n : Str} {S : List Str}
    (hg : MemoGood cs memo) (hspec : ClosureSpec cs n S) :
    MemoGood cs ((n, S) :: memo) := by
  intro k S2 h
  rw [alookup_cons] at h
  by_cases hkn : n = k
  · rw [if_pos hkn] at h
    obtain rfl : S = S2 := by simpa using h
    rw [← hkn]
    exact hspec
  · rw [if_neg hkn] at h
    exact hg k S2 h

theorem solveTC_succ (m : ConceptMap) (f : Nat) (memo : Memo) (n : Str) :
    solveTC m (f + 1) memo n = solveTCStep m (solveTC m f) memo n := rfl

/-! ### Correctness of the memoized transitive-closure solver -/

theorem solveTC_fold {m : ConceptMap} {order : List Str} {f : Nat}
    (hrec : ∀ (d : Str), (∃ j, alookup m.lookup d = some j) → rankIn order d < f →
      ∀ memo, MemoGood m.concepts memo →
        ∃ memo2, solveTC m f memo d = some memo2 ∧ MemoGood m.concepts memo2 ∧
          MemoLe memo memo2 ∧
          ∃ S, alookup memo2 d = some S ∧ ClosureSpec m.concepts d S) :
    ∀ (l : List Str), (∀ d ∈ l, (∃ j, alookup m.lookup d = some j) ∧ rankIn order d < f) →
      ∀ (mm : Memo) (all : List Str), MemoGood m.concepts mm → all.Nodup →
        ∃ mm2 all2,
          l.foldl (solveTCFoldStep (solveTC m f)) (some (mm, all)) = some (mm2, all2) ∧
            MemoGood m.concepts mm2 ∧ MemoLe mm mm2 ∧ all2.Nodup ∧
            (∀ x, x ∈ all2 ↔ x ∈ all ∨
              ∃ d ∈ l, Relation.TransGen (dependsOn m.concepts) d x) := by
  intro l
  induction l with
  | nil =>
    intro _ mm all hgood hnodup
    exact ⟨mm, all, rfl, hgood, memoLe_refl mm, hnodup, fun x => by simp⟩
  | cons d t ih =>
    intro hl mm all hgood hnodup
    obtain ⟨hdk, hdrank⟩ := hl d (List.mem_cons_self d t)
    obtain ⟨mmd, hsolve, hgoodd, hled, S, hSd, hSnodup, hSspec⟩ :=
      hrec d hdk hdrank mm hgood
    have hstep : solveTCFoldStep (solveTC m f) (some (mm, all)) d =
        some (mmd, sunion all S) := by
      simp only [solveTCFoldStep, hsolve, hSd, Option.getD_some]
    rw [List.foldl_cons, hstep]
    obtain ⟨mm2, all2, heq, hgood2, hle2, hnodup2, hiff⟩ :=
      ih (fun d2 hd2 => hl d2 (List.mem_cons_of_mem d hd2)) mmd (sunion all S)
        hgoodd (sunion_nodup hnodup)
    refine ⟨mm2, all2, heq, hgood2, memoLe_trans hled hle2, hnodup2, ?_⟩
    intro x
    rw [hiff x]
    simp only [mem_sunion, List.exists_mem_cons_iff]
    constructor
    · rintro ((hx | hx) | hx)
      · exact Or.inl hx
      · exact Or.inr (Or.inl ((hSspec x).mp hx))
      · exact Or.inr (Or.inr hx)
    · rintro (hx | hx | hx)
      · exact Or.inl (Or.inl hx)
      · exact Or.inl (Or.inr ((hSspec x).mpr hx))
      · exact Or.inr hx

theorem solveTC_correct {m : ConceptMap} {order : List Str}
    (hs : LookupSound m) (hN : (m.concepts.map fun c => c.concept).Nodup)
    (hdeps : ∀ c ∈ m.concepts, ∀ d ∈ c.dependencies,
      (alookup m.lookup d).isSome = true)
    (hcomp : ∀ c ∈ m.concepts, c.concept ∈ order)
    (hro : RankOrdered m.concepts order) :
    ∀ (fuel : Nat) (n : Str), (∃ i, alookup m.lookup n = some i) →
      rankIn order n < fuel →
      ∀ (memo : Memo), MemoGood m.concepts memo →
        ∃ memo2, solveTC m fuel memo n = some memo2 ∧ MemoGood m.concepts memo2 ∧
          MemoLe memo memo2 ∧
          ∃ S, alookup memo2 n = some S ∧ ClosureSpec m.concepts n S := by
  intro fuel
  induction fuel with
  | zero => intro n _ hrank; exact absurd hrank (Nat.not_lt_zero _)
  | succ f ih =>
    intro n hkey hrank memo hgood
    obtain ⟨i, hkey⟩ := hkey
    rw [solveTC_succ]
    cases hmn : alookup memo n with
    | some S =>
      refine ⟨memo, ?_, hgood, memoLe_refl memo, S, hmn, hgood n S hmn⟩
      unfold solveTCStep
      rw [hmn]
    | none =>
      have hdskey : ∀ b, b ∈ (m.dependency_to_concept n).dependencies ↔
          dependsOn m.concepts n b := deps_of_key hs hN hkey
      by_cases hempty : (m.dependency_to_concept n).dependencies = []
      · have hres : solveTCStep m (solveTC m f) memo n = some ((n, []) :: memo) := by
          unfold solveTCStep
          rw [hmn, hempty]
          rfl
        have hspec : ClosureSpec m.concepts n [] := by
          refine ⟨List.nodup_nil, fun x => ⟨fun hx => absurd hx (List.not_mem_nil x), ?_⟩⟩
          intro htg
          rcases Relation.TransGen.head'_iff.mp htg with ⟨b, hstep, _⟩
          have : b ∈ (m.dependency_to_concept n).dependencies := (hdskey b).mpr hstep
          rw [hempty] at this
          exact absurd this (List.not_mem_nil b)
        refine ⟨(n, []) :: memo, hres, memoGood_cons hgood hspec,
          memoLe_cons_of_none (memoLe_refl memo) hmn, [], ?_, hspec⟩
        rw [alookup_cons, if_pos rfl]
      · have hl : ∀ d ∈ (m.dependency_to_concept n).dependencies,
            (∃ j, alookup m.lookup d = some j) ∧ rankIn order d < f := by
          intro d hd
          have hdep : dependsOn m.concepts n d := (hdskey d).mp hd
          obtain ⟨c, hc, hcd⟩ := dependsOn_target hdep
          have hsome := hdeps c hc d hcd
          constructor
          · cases hld : alookup m.lookup d with
            | none => rw [hld] at hsome; simp at hsome
            | some j => exact ⟨j, rfl⟩
          · have hlt := (rank_lt_of_dependsOn hro hcomp hdep).2.2
            omega
        obtain ⟨mm2, all2, heq, hgood2, hle2, hnodup2, hiff⟩ :=
          solveTC_fold ih (m.dependency_to_concept n).dependencies hl memo
            (sdedup (m.dependency_to_concept n).dependencies) hgood sdedup_nodup
        have hres : solveTCStep m (solveTC m f) memo n = some ((n, all2) :: mm2) := by
          unfold solveTCStep
          rw [hmn]
          simp only [if_neg hempty]
          rw [heq]
        have hspec : ClosureSpec m.concepts n all2 := by
          refine ⟨hnodup2, fun x => ?_⟩
          rw [hiff x, mem_sdedup]
          constructor
          · rintro (hx | ⟨d, hd, htg⟩)
            · exact Relation.TransGen.single ((hdskey x).mp hx)
            · exact Relation.TransGen.head ((hdskey d).mp hd) htg
          · intro htg
            rcases Relation.TransGen.head'_iff.mp htg with ⟨b, hstep, hrt⟩
            have hb : b ∈ (m.dependency_to_concept n).dependencies := (hdskey b).mpr hstep
            rcases Relation.reflTransGen_iff_eq_or_transGen.mp hrt with rfl | htg2
            · exact Or.inl hb
            · exact Or.inr ⟨b, hb, htg2⟩
        refine ⟨(n, all2) :: mm2, hres, memoGood_cons hgood2 hspec,
          memoLe_cons_of_none hle2 hmn, all2, ?_, hspec⟩
        rw [alookup_cons, if_pos rfl]

theorem solveClosures_correct {m : ConceptMap} {order : List Str}
    (hs : LookupSound m) (hk : NamesKeyed m)
    (hN : (m.concepts.map fun c => c.concept).Nodup)
    (hdeps : ∀ c ∈ m.concepts, ∀ d ∈ c.dependencies,
      (alookup m.lookup d).isSome = true)
    (hcomp : ∀ c ∈ m.concepts, c.concept ∈ order)
    (hro : RankOrdered m.concepts order) {fuel : Nat}
    (hfuel : ∀ c ∈ m.concepts, rankIn order c.concept < fuel) :
    ∃ memo, m.solveClosures fuel = some memo ∧ MemoGood m.concepts memo ∧
      ∀ c ∈ m.concepts, ∃ S, alookup memo c.concept = some S ∧
        ClosureSpec m.concepts c.concept S := by
  have main : ∀ (l : List Concept), (∀ c ∈ l, c ∈ m.concepts) →
      ∀ memo, MemoGood m.concepts memo →
        ∃ memo2, l.foldl (solveClosuresStep m fuel) (some memo) = some memo2 ∧
          MemoGood m.concepts memo2 ∧ MemoLe memo memo2 ∧
          ∀ c ∈ l, ∃ S, alookup memo2 c.concept = some S ∧
            ClosureSpec m.concepts c.concept S := by
    intro l
    induction l with
    | nil =>
      intro _ memo hg
      exact ⟨memo, rfl, hg, memoLe_refl memo, by simp⟩
    | cons c t ih =>
      intro hsub memo hg
      have hcm : c ∈ m.concepts := hsub c (List.mem_cons_self c t)
      have hkey : ∃ i, alookup m.lookup c.concept = some i := by
        have hsome := hk c hcm
        cases hlc : alookup m.lookup c.concept with
        | none => rw [hlc] at hsome; simp at hsome
        | some i => exact ⟨i, rfl⟩
      obtain ⟨memo1, hstep, hg1, hle1, S, hS, hSspec⟩ :=
        solveTC_correct hs hN hdeps hcomp hro fuel c.concept hkey (hfuel c hcm) memo hg
      have hstep2 : solveClosuresStep m fuel (some memo) c = some memo1 := by
        simp only [solveClosuresStep, hstep]
      rw [List.foldl_cons, hstep2]
      obtain ⟨memo2, heq, hg2, hle2, hents⟩ :=
        ih (fun c2 hc2 => hsub c2 (List.mem_cons_of_mem c hc2)) memo1 hg1
      refine ⟨memo2, heq, hg2, memoLe_trans hle1 hle2, ?_⟩
      intro c2 hc2
      rcases List.mem_cons.mp hc2 with rfl | hc2t
      · exact ⟨S, hle2 _ _ hS, hSspec⟩
      · exact hents c2 hc2t
  obtain ⟨memo, heq, hg, _, hents⟩ :=
    main m.concepts (fun c hc => hc) [] (fun k S h => by simp [alookup] at h)
  exact ⟨memo, heq, hg, hents⟩

/-! ### The per-name weight table built by `solve` -/

theorem weights_fold_skip :
    ∀ (l : List Concept) (w : List (Str × ℚ)) (k : Str),
      (∀ c ∈ l, c.concept ≠ k) →
      alookup (l.foldl (fun w c => (c.concept, (c.modes 0).weight) :: w) w) k =
        alookup w k := by
  intro l
  induction l with
  | nil => intro w k _; rfl
  | cons c t ih =>
    intro w k hne
    rw [List.foldl_cons]
    rw [ih _ k fun c2 hc2 => hne c2 (List.mem_cons_of_mem c hc2)]
    rw [alookup_cons, if_neg (hne c (List.mem_cons_self c t))]

theorem weights_fold_mem :
    ∀ (l : List Concept), (l.map fun c => c.concept).Nodup →
      ∀ (w : List (Str × ℚ)) (c : Concept), c ∈ l →
        alookup (l.foldl (fun w c => (c.concept, (c.modes 0).weight) :: w) w)
          c.concept = some ((c.modes 0).weight) := by
  intro l
  induction l with
  | nil => intro _ w c hc; simp at hc
  | cons a t ih =>
    intro hN w c hc
    simp only [List.map_cons, List.nodup_cons] at hN
    obtain ⟨ha, ht⟩ := hN
    rcases List.mem_cons.mp hc with rfl | hct
    · rw [List.foldl_cons]
      have hne : ∀ c2 ∈ t, c2.concept ≠ c.concept := by
        intro c2 hc2 hceq
        exact ha (List.mem_map.mpr ⟨c2, hc2, hceq⟩)
      rw [weights_fold_skip t _ _ hne, alookup_cons, if_pos rfl]
    · rw [List.foldl_cons]
      exact ih ht _ c hct

theorem foldl_add_eq_sum (f : Str → ℚ) :
    ∀ (l : List Str) (a : ℚ), l.foldl (fun p d => p + f d) a = a + (l.map f).sum := by
  intro l
  induction l with
  | nil => intro a; simp
  | cons d t ih =>
    intro a
    rw [List.foldl_cons, ih, List.map_cons, List.sum_cons, add_assoc]

theorem nodup_length_le {l l2 : List Str} (hN : l.Nodup) (hsub : ∀ n ∈ l, n ∈ l2) :
    l.length ≤ l2.length := by
  calc l.length = l.toFinset.card := (List.toFinset_card_of_nodup hN).symm
    _ ≤ l2.toFinset.card := by
        refine Finset.card_le_card ?_
        intro x hx
        rw [List.mem_toFinset] at hx ⊢
        exact hsub x hx
    _ ≤ l2.length := l2.toFinset_card_le

theorem get_map_fn {α β : Type} (f : α → β) :
    ∀ (l : List α) (i : Nat) (h : i < l.length) (h2 : i < (l.map f).length),
      (l.map f).get ⟨i, h2⟩ = f (l.get ⟨i, h⟩) := by
  intro l
  induction l with
  | nil => intro i h; simp at h
  | cons a t ih =>
    intro i h h2
    cases i with
    | zero => rfl
    | succ j => exact ih j (Nat.lt_of_succ_lt_succ h) (by simpa using h2)

theorem solveConceptUpdate_earliest (all_deps : Memo) (weights : List (Str × ℚ))
    (c : Concept) :
    ((solveConceptUpdate all_deps weights c).modes 0).range.earliest_start =
      ((alookup all_deps c.concept).getD []).foldl
        (fun p d => p + (alookup weights d).getD 0) 0 := rfl

theorem solveWeights_mem {m : ConceptMap}
    (hN : (m.concepts.map fun c => c.concept).Nodup) {c : Concept}
    (hc : c ∈ m.concepts) :
    alookup (solveWeights m) c.concept = some ((c.modes 0).weight) :=
  weights_fold_mem m.concepts hN [] c hc

theorem solve_correct {m : ConceptMap} {order : List Str}
    (hs : LookupSound m) (hk : NamesKeyed m)
    (hN : (m.concepts.map fun c => c.concept).Nodup)
    (hdeps : ∀ c ∈ m.concepts, ∀ d ∈ c.dependencies,
      (alookup m.lookup d).isSome = true)
    (hcomp : ∀ c ∈ m.concepts, c.concept ∈ order)
    (hro : RankOrdered m.concepts order)
    (hordN : order.Nodup)
    (hordsub : ∀ n ∈ order, n ∈ m.concepts.map fun c => c.concept) :
    ∃ memo m2,
      m.solve_total_weights.solveClosures (m.concepts.length + 1) = some memo ∧
        m.solve = some m2 ∧
        m2.concepts = m.concepts.map
          (solveConceptUpdate memo (solveWeights m.solve_total_weights)) ∧
        ∀ c ∈ m.concepts,
          ∃ S, alookup memo c.concept = some S ∧
            ClosureSpec m.concepts c.concept S ∧ c.concept ∉ S ∧
            ((solveConceptUpdate memo (solveWeights m.solve_total_weights) c).modes
                0).range.earliest_start =
              (S.map fun d => ((m.dependency_to_concept d).modes 0).weight).sum := by
  have hfuel : ∀ c ∈ m.solve_total_weights.concepts,
      rankIn order c.concept < m.solve_total_weights.concepts.length + 1 := by
    intro c hc
    have h1 : rankIn order c.concept < order.length := rankIn_lt_length (hcomp c hc)
    have h2 : order.length ≤ (m.concepts.map fun c => c.concept).length :=
      nodup_length_le hordN hordsub
    rw [List.length_map] at h2
    have h3 : m.solve_total_weights.concepts.length = m.concepts.length := rfl
    omega
  obtain ⟨memo, hclos, hgood, hents⟩ :=
    solveClosures_correct (m := m.solve_total_weights)
      hs hk hN hdeps hcomp hro hfuel
  have hsolve : m.solve = some { m.solve_total_weights with
      concepts := m.solve_total_weights.concepts.map
        (solveConceptUpdate memo (solveWeights m.solve_total_weights)) } := by
    simp only [ConceptMap.solve, hclos]
  refine ⟨memo, _, hclos, hsolve, rfl, ?_⟩
  intro c hc
  obtain ⟨S, hS, hSspec⟩ := hents c hc
  refine ⟨S, hS, hSspec,
    fun hself => no_self_reach hro hcomp _ ((hSspec.2 _).mp hself), ?_⟩
  rw [solveConceptUpdate_earliest, hS]
  show S.foldl _ 0 = _
  rw [foldl_add_eq_sum, zero_add]
  have hptwise : ∀ d ∈ S,
      (alookup (solveWeights m.solve_total_weights) d).getD 0 =
        ((m.dependency_to_concept d).modes 0).weight := by
    intro d hd
    have htg := (hSspec.2 d).mp hd
    obtain ⟨c2, hc2, hdc2⟩ := transGen_target htg
    have hsome := hdeps c2 hc2 d hdc2
    cases hld : alookup m.lookup d with
    | none => rw [hld] at hsome; simp at hsome
    | some j =>
      obtain ⟨hlt, hname⟩ := hs _ _ hld
      have hcd : m.concepts.getD j default ∈ m.concepts := getD_mem hlt default
      have hw : alookup (solveWeights m.solve_total_weights)
          (m.concepts.getD j default).concept =
          some (((m.concepts.getD j default).modes 0).weight) :=
        solveWeights_mem hN hcd
      rw [hname] at hw
      rw [hw]
      have hdc : m.dependency_to_concept d = m.concepts.getD j default := by
        have := dep_to_concept_eq hs hk hN _ hcd
        rw [hname] at this
        exact this
      rw [hdc]
      rfl
  exact congrArg List.sum (List.map_congr_left hptwise)

/-! ### Assembling the validated-graph facts -/

theorem getD_map_of_lt {α β : Type} (f : α → β) (l : List α) :
    ∀ {i : Nat}, i < l.length → ∀ (d : α) (d2 : β),
      (l.map f).getD i d2 = f (l.getD i d) := by
  induction l with
  | nil => intro i h; simp at h
  | cons a t ih =>
    intro i h d d2
    cases i with
    | zero => rfl
    | succ j => exact ih (Nat.lt_of_succ_lt_succ h) d d2

theorem count_eq_one_of_nodup_mem {l : List Str} {n : Str}
    (hN : l.Nodup) (hm : n ∈ l) : l.count n = 1 := by
  induction l with
  | nil => simp at hm
  | cons a t ih =>
    rcases List.nodup_cons.mp hN with ⟨ha, ht⟩
    rcases List.mem_cons.mp hm with rfl | hmt
    · rw [List.count_cons_self]
      have hz : t.count n = 0 := by
        rw [List.count_eq_zero]
        exact ha
      omega
    · have hne : n ≠ a := by
        rintro rfl
        exact ha hmt
      rw [List.count_cons_of_ne hne]
      exact ih ht hmt

theorem lookupSound_validate {m0 : ConceptMap} (hs : LookupSound m0) :
    LookupSound (ConceptMapBuilder.validate m0) := by
  intro k i h
  rw [validate_lookup] at h
  obtain ⟨hlt, hname⟩ := hs k i h
  rw [validate_concepts, (pruneConcepts_spec m0).1]
  refine ⟨by simpa using hlt, ?_⟩
  rw [getD_map_of_lt _ _ hlt default]
  exact hname

theorem namesKeyed_validate {m0 : ConceptMap} (hk : NamesKeyed m0) :
    NamesKeyed (ConceptMapBuilder.validate m0) := by
  intro c hc
  rw [validate_concepts, (pruneConcepts_spec m0).1] at hc
  rcases List.mem_map.mp hc with ⟨c0, hc0, rfl⟩
  rw [validate_lookup]
  exact hk c0 hc0

theorem validate_names (m0 : ConceptMap) :
    (ConceptMapBuilder.validate m0).concepts.map (fun c => c.concept) =
      m0.concepts.map fun c => c.concept := by
  rw [validate_concepts]
  exact pruned_names m0

theorem key_in_pendingInit {m : ConceptMap} (hs : LookupSound m) {d : Str}
    (h : (alookup m.lookup d).isSome = true) :
    d ∈ pendingInit (pruneConcepts m).1 := by
  rw [mem_pendingInit]
  cases hld : alookup m.lookup d with
  | none => rw [hld] at h; simp at h
  | some j =>
    obtain ⟨hlt, hname⟩ := hs _ _ hld
    have hmem : d ∈ m.concepts.map fun c => c.concept :=
      List.mem_map.mpr ⟨_, getD_mem hlt default, hname⟩
    rw [← pruned_names] at hmem
    rcases List.mem_map.mp hmem with ⟨c, hc, hcd⟩
    exact ⟨c, hc, hcd⟩

theorem pendingInit_loopState (cs : List Concept) :
    LoopState (pendingInit cs) [] (pendingInit cs) := by
  refine ⟨List.nodup_nil, pendingInit_nodup, ?_, ?_, ?_, fun n hn => hn⟩
  · intro n hn; simp at hn
  · intro n hn; simp at hn
  · intro n hn; exact Or.inr hn

theorem rankOrdered_nil (cs : List Concept) : RankOrdered cs [] := by
  intro c _ hmem
  simp at hmem

theorem topo_success {m0 : ConceptMap}
    (hN0 : ((pruneConcepts m0).1.map fun c => c.concept).Nodup)
    (hs : LookupSound m0)
    (hEmpty : (ConceptMapBuilder.topoResult m0).2 = []) :
    (ConceptMapBuilder.topoResult m0).1.Nodup ∧
      (∀ n ∈ (ConceptMapBuilder.topoResult m0).1,
        n ∈ (pruneConcepts m0).1.map fun c => c.concept) ∧
      (∀ c ∈ (pruneConcepts m0).1,
        c.concept ∈ (ConceptMapBuilder.topoResult m0).1) ∧
      RankOrdered (pruneConcepts m0).1 (ConceptMapBuilder.topoResult m0).1 := by
  have htr : ConceptMapBuilder.topoResult m0 =
      validateLoop ((pendingInit (pruneConcepts m0).1).length + 1)
        (pruneConcepts m0).1 [] (pendingInit (pruneConcepts m0).1) := rfl
  rw [htr] at hEmpty ⊢
  have hDeps : ∀ c ∈ (pruneConcepts m0).1, ∀ d ∈ c.dependencies,
      d ∈ pendingInit (pruneConcepts m0).1 :=
    fun c hc d hd => key_in_pendingInit hs (pruned_deps_keyed m0 c hc d hd)
  obtain ⟨hls, hro⟩ := loop_inv hN0 hDeps
    ((pendingInit (pruneConcepts m0).1).length + 1) [] (pendingInit (pruneConcepts m0).1)
    (pendingInit_loopState _) (rankOrdered_nil _)
  obtain ⟨h1, _, h3, _, h5, _⟩ := hls
  refine ⟨h1, ?_, ?_, hro⟩
  · intro n hn
    have := h3 n hn
    rw [mem_pendingInit] at this
    rcases this with ⟨c, hc, hcn⟩
    exact List.mem_map.mpr ⟨c, hc, hcn⟩
  · intro c hc
    have hmem : c.concept ∈ pendingInit (pruneConcepts m0).1 :=
      mem_pendingInit.mpr ⟨c, hc, rfl⟩
    rcases h5 _ hmem with ho | hpend
    · exact ho
    · rw [hEmpty] at hpend
      exact absurd hpend (List.not_mem_nil _)

theorem topo_order_disjoint_pending {m0 : ConceptMap} :
    ∀ n ∈ (ConceptMapBuilder.topoResult m0).1,
      n ∉ (ConceptMapBuilder.topoResult m0).2 := by
  have htr : ConceptMapBuilder.topoResult m0 =
      validateLoop ((pendingInit (pruneConcepts m0).1).length + 1)
        (pruneConcepts m0).1 [] (pendingInit (pruneConcepts m0).1) := rfl
  rw [htr]
  have hls := loop_loopState
    (pruneConcepts m0).1 ((pendingInit (pruneConcepts m0).1).length + 1)
    [] (pendingInit (pruneConcepts m0).1) (pendingInit_loopState _)
  exact hls.2.2.2.1

theorem topo_cyc_stuck {m0 : ConceptMap} (hs : LookupSound m0)
    (hN0 : ((pruneConcepts m0).1.map fun c => c.concept).Nodup) :
    ∀ n, CycName (pruneConcepts m0).1 n →
      n ∈ (ConceptMapBuilder.topoResult m0).2 := by
  intro n hn
  have htr : ConceptMapBuilder.topoResult m0 =
      validateLoop ((pendingInit (pruneConcepts m0).1).length + 1)
        (pruneConcepts m0).1 [] (pendingInit (pruneConcepts m0).1) := rfl
  rw [htr]
  have hprot : ∀ x, CycName (pruneConcepts m0).1 x →
      x ∈ pendingInit (pruneConcepts m0).1 := by
    intro x hx
    obtain ⟨c, hc, hxc⟩ := transGen_target hx
    exact key_in_pendingInit hs (pruned_deps_keyed m0 c hc x hxc)
  exact loop_cyc hN0 _ [] (pendingInit (pruneConcepts m0).1) hprot n hn

theorem pruneDiags_no_circular (m : ConceptMap) :
    (pruneConcepts m).2.countP isCircularDiag = 0 := by
  rw [(pruneConcepts_spec m).2]
  rw [List.countP_eq_zero]
  intro a ha
  rcases List.mem_flatten.mp ha with ⟨inner, hinner, hain⟩
  rcases List.mem_map.mp hinner with ⟨c, hc, rfl⟩
  rw [(resolveOne_spec m.lookup c).2] at hain
  rcases List.mem_map.mp hain with ⟨d, _, rfl⟩
  simp [isCircularDiag]

theorem build_eq (records : List ConceptRecord) :
    ConceptMapBuilder.build records =
      ConceptMapBuilder.validate (ConceptMapBuilder.addAll records) := rfl

theorem topo_order_sub_names {m0 : ConceptMap} :
    ∀ n ∈ (ConceptMapBuilder.topoResult m0).1,
      n ∈ pendingInit (pruneConcepts m0).1 := by
  have htr : ConceptMapBuilder.topoResult m0 =
      validateLoop ((pendingInit (pruneConcepts m0).1).length + 1)
        (pruneConcepts m0).1 [] (pendingInit (pruneConcepts m0).1) := rfl
  rw [htr]
  have hls := loop_loopState
    (pruneConcepts m0).1 ((pendingInit (pruneConcepts m0).1).length + 1)
    [] (pendingInit (pruneConcepts m0).1) (pendingInit_loopState _)
  exact hls.2.2.1

/-! ### Claim theorems -/

/-- C10: for every sequence of `add` calls followed by `validate`, every
value stored in the name→position lookup is a valid index into the concept
vector and the concept there carries exactly the looked-up name; moreover
every name drawn from a post-validation dependency list or from
`dependency_order` resolves through the lookup, so
`dependency_to_concept`'s unwrap and indexing are safe on those names. -/
theorem c10_lookup_safety (records : List ConceptRecord) :
    LookupSound (ConceptMapBuilder.build records) ∧
      (∀ c ∈ (ConceptMapBuilder.build records).concepts, ∀ d ∈ c.dependencies,
        ∃ i, alookup (ConceptMapBuilder.build records).lookup d = some i ∧
          i < (ConceptMapBuilder.build records).concepts.length ∧
          ((ConceptMapBuilder.build records).concepts.getD i default).concept = d) ∧
      ∀ n ∈ (ConceptMapBuilder.build records).dependency_order,
        ∃ i, alookup (ConceptMapBuilder.build records).lookup n = some i ∧
          i < (ConceptMapBuilder.build records).concepts.length ∧
          ((ConceptMapBuilder.build records).concepts.getD i default).concept = n := by
  have hs : LookupSound (ConceptMapBuilder.build records) := by
    rw [build_eq]
    exact lookupSound_validate (lookupSound_addAll records)
  refine ⟨hs, ?_, ?_⟩
  · intro c hc d hd
    have hc2 : c ∈ (pruneConcepts (ConceptMapBuilder.addAll records)).1 := by
      rw [build_eq, validate_concepts] at hc
      exact hc
    have hsome := pruned_deps_keyed (ConceptMapBuilder.addAll records) c hc2 d hd
    have hsome2 : (alookup (ConceptMapBuilder.build records).lookup d).isSome = true := by
      rw [build_eq, validate_lookup]
      exact hsome
    cases hld : alookup (ConceptMapBuilder.build records).lookup d with
    | none => rw [hld] at hsome2; simp at hsome2
    | some i =>
      obtain ⟨hlt, hname⟩ := hs _ _ hld
      exact ⟨i, rfl, hlt, hname⟩
  · intro n hn
    rw [build_eq, validate_order, addAll_dependency_order, List.nil_append] at hn
    have hnames := topo_order_sub_names n hn
    rw [mem_pendingInit] at hnames
    obtain ⟨c, hcp, hcn⟩ := hnames
    have hck : (alookup (ConceptMapBuilder.build records).lookup n).isSome = true := by
      have := namesKeyed_validate (namesKeyed_addAll records) c
        (by rw [validate_concepts]; exact hcp)
      rw [validate_lookup] at this
      rw [build_eq, validate_lookup, ← hcn]
      exact this
    cases hld : alookup (ConceptMapBuilder.build records).lookup n with
    | none => rw [hld] at hck; simp at hck
    | some i =>
      obtain ⟨hlt, hname⟩ := hs _ _ hld
      exact ⟨i, rfl, hlt, hname⟩

/-- Witness for C10 at a concrete input: the name `B` appears in the
topological order of the chain input and resolves to a sound index. -/
theorem c10_lookup_safety_witness :
    ['B'] ∈ (ConceptMapBuilder.build chainRecs).dependency_order ∧
      ∃ i, alookup (ConceptMapBuilder.build chainRecs).lookup ['B'] = some i ∧
        i < (ConceptMapBuilder.build chainRecs).concepts.length ∧
        ((ConceptMapBuilder.build chainRecs).concepts.getD i default).concept = ['B'] :=
  ⟨by decide, (c10_lookup_safety chainRecs).2.2 ['B'] (by decide)⟩

/-- C5: after `validate`, each concept's dependency list is its original
list filtered to the names present in the lookup (hence in original
relative order, a sublist), every surviving dependency resolves in the
lookup, and each dropped occurrence produced exactly one dangling
diagnostic, appended in order before the optional circular diagnostic. -/
theorem c5_reference_integrity (m : ConceptMap) :
    (ConceptMapBuilder.validate m).concepts.length = m.concepts.length ∧
      (∀ i, i < m.concepts.length →
        ((ConceptMapBuilder.validate m).concepts.getD i default).dependencies =
            (m.concepts.getD i default).dependencies.filter
              (fun d => (alookup m.lookup d).isSome) ∧
          ((ConceptMapBuilder.validate m).concepts.getD i
              default).dependencies.Sublist
            (m.concepts.getD i default).dependencies) ∧
      (∀ c ∈ (ConceptMapBuilder.validate m).concepts, ∀ d ∈ c.dependencies,
        (alookup (ConceptMapBuilder.validate m).lookup d).isSome = true) ∧
      (ConceptMapBuilder.validate m).errors = m.errors ++
        (m.concepts.map fun c =>
          (c.dependencies.filter fun d => (alookup m.lookup d).isNone).map
            fun d => Diag.dangling d c.concept c.line).flatten ++
        (if 0 < (ConceptMapBuilder.topoResult m).2.length then
          [Diag.circular (ConceptMapBuilder.topoResult m).2.length
            (ConceptMapBuilder.topoResult m).2]
        else []) := by
  refine ⟨?_, ?_, ?_, ?_⟩
  · rw [validate_concepts, pruned_length]
  · intro i h
    have hfil : ((ConceptMapBuilder.validate m).concepts.getD i default).dependencies =
        (m.concepts.getD i default).dependencies.filter
          (fun d => (alookup m.lookup d).isSome) := by
      rw [validate_concepts, (pruneConcepts_spec m).1, getD_map_of_lt _ _ h default,
        (resolveOne_spec m.lookup _).1]
    exact ⟨hfil, hfil ▸ List.filter_sublist _⟩
  · intro c hc d hd
    rw [validate_lookup]
    rw [validate_concepts] at hc
    exact pruned_deps_keyed m c hc d hd
  · rw [validate_errors, (pruneConcepts_spec m).2]
    have hmap : (m.concepts.map fun c => (resolveOne m.lookup c).2) =
        m.concepts.map fun c =>
          (c.dependencies.filter fun d => (alookup m.lookup d).isNone).map
            fun d => Diag.dangling d c.concept c.line :=
      List.map_congr_left fun c _ => (resolveOne_spec m.lookup c).2
    rw [hmap]

/-- Witness for C5 at a concrete input with a dangling dependency. -/
theorem c5_reference_integrity_witness :
    0 < (ConceptMapBuilder.addAll danglingRecs).concepts.length ∧
      ((ConceptMapBuilder.validate (ConceptMapBuilder.addAll danglingRecs)).concepts.getD
          0 default).dependencies =
        ((ConceptMapBuilder.addAll danglingRecs).concepts.getD 0
            default).dependencies.filter
          (fun d => (alookup (ConceptMapBuilder.addAll danglingRecs).lookup d).isSome) :=
  ⟨by decide,
    ((c5_reference_integrity (ConceptMapBuilder.addAll danglingRecs)).2.1 0
      (by decide)).1⟩

/-- C2 (amended): whenever the concepts' (trimmed) names are pairwise
distinct and the frontier-peeling loop terminates with an empty pending
set, `dependency_order` contains every concept's name exactly once, and
every concept's name is placed strictly after each of its post-pruning
dependencies.  The distinct-names hypothesis is forced by
`c2_topological_order_cex`: a record whose raw name evades the duplicate
check can make one placement stand for two concepts. -/
theorem c2_topological_order (records : List ConceptRecord)
    (hN : ((ConceptMapBuilder.addAll records).concepts.map fun c => c.concept).Nodup)
    (hEmpty : (ConceptMapBuilder.topoResult (ConceptMapBuilder.addAll records)).2 = []) :
    (ConceptMapBuilder.build records).dependency_order.Nodup ∧
      (∀ n ∈ (ConceptMapBuilder.build records).dependency_order,
        n ∈ (ConceptMapBuilder.build records).concepts.map fun c => c.concept) ∧
      (∀ c ∈ (ConceptMapBuilder.build records).concepts,
        (ConceptMapBuilder.build records).dependency_order.count c.concept = 1) ∧
      ∀ c ∈ (ConceptMapBuilder.build records).concepts, ∀ d ∈ c.dependencies,
        d ∈ (ConceptMapBuilder.build records).dependency_order ∧
          rankIn (ConceptMapBuilder.build records).dependency_order d <
            rankIn (ConceptMapBuilder.build records).dependency_order c.concept := by
  have hN0 : ((pruneConcepts (ConceptMapBuilder.addAll records)).1.map
      fun c => c.concept).Nodup := by
    rw [pruned_names]
    exact hN
  obtain ⟨h1, h2, h3, h4⟩ := topo_success hN0 (lookupSound_addAll records) hEmpty
  have hord : (ConceptMapBuilder.build records).dependency_order =
      (ConceptMapBuilder.topoResult (ConceptMapBuilder.addAll records)).1 := by
    rw [build_eq, validate_order, addAll_dependency_order, List.nil_append]
  have hconc : (ConceptMapBuilder.build records).concepts =
      (pruneConcepts (ConceptMapBuilder.addAll records)).1 := by
    rw [build_eq, validate_concepts]
  rw [hord, hconc]
  exact ⟨h1, h2, fun c hc => count_eq_one_of_nodup_mem h1 (h3 c hc),
    fun c hc d hd => h4 c hc (h3 c hc) d hd⟩

/-- Witness for C2 at the concrete acyclic chain input. -/
theorem c2_topological_order_witness :
    (((ConceptMapBuilder.addAll chainRecs).concepts.map fun c => c.concept).Nodup ∧
      (ConceptMapBuilder.topoResult (ConceptMapBuilder.addAll chainRecs)).2 = []) ∧
      (ConceptMapBuilder.build chainRecs).dependency_order.Nodup :=
  ⟨⟨by decide, by decide⟩, (c2_topological_order chainRecs (by decide) (by decide)).1⟩

/-- Counterexample to C2 as stated: on `dupRecs` the loop terminates with
an empty pending set (and no diagnostics at all), yet the concept at
position 1 — named `A`, depending on `B` — has its name at position 0 of
`dependency_order` while its dependency `B` sits at position 1, so a
concept appears before one of its post-pruning dependencies. -/
theorem c2_topological_order_cex :
    (ConceptMapBuilder.topoResult (ConceptMapBuilder.addAll dupRecs)).2 = [] ∧
      (ConceptMapBuilder.build dupRecs).errors = [] ∧
      (ConceptMapBuilder.build dupRecs).dependency_order = [['A'], ['B']] ∧
      ((ConceptMapBuilder.build dupRecs).concepts.getD 1 default).concept = ['A'] ∧
      ((ConceptMapBuilder.build dupRecs).concepts.getD 1 default).dependencies =
        [['B']] ∧
      rankIn (ConceptMapBuilder.build dupRecs).dependency_order ['B'] = 1 ∧
      rankIn (ConceptMapBuilder.build dupRecs).dependency_order ['A'] = 0 := by
  decide

/-- C3 (amended): whenever the concepts' names are pairwise distinct and
the resolved dependency relation has a cycle through some name `n`, the
frontier-peeling loop ends with a non-empty pending set containing `n`,
`validate` emits exactly one circular-dependency diagnostic carrying the
count and the full stuck set, and no stuck name appears in
`dependency_order`.  The distinct-names hypothesis is forced by
`c3_cycle_detection_cex`. -/
theorem c3_cycle_detection (records : List ConceptRecord) (n : Str)
    (hN : ((ConceptMapBuilder.addAll records).concepts.map fun c => c.concept).Nodup)
    (hcyc : Relation.TransGen
      (dependsOn (ConceptMapBuilder.build records).concepts) n n) :
    n ∈ (ConceptMapBuilder.topoResult (ConceptMapBuilder.addAll records)).2 ∧
      (ConceptMapBuilder.topoResult (ConceptMapBuilder.addAll records)).2 ≠ [] ∧
      Diag.circular
          (ConceptMapBuilder.topoResult (ConceptMapBuilder.addAll records)).2.length
          (ConceptMapBuilder.topoResult (ConceptMapBuilder.addAll records)).2 ∈
        (ConceptMapBuilder.build records).errors ∧
      (ConceptMapBuilder.build records).errors.countP isCircularDiag = 1 ∧
      ∀ x ∈ (ConceptMapBuilder.topoResult (ConceptMapBuilder.addAll records)).2,
        x ∉ (ConceptMapBuilder.build records).dependency_order := by
  have hN0 : ((pruneConcepts (ConceptMapBuilder.addAll records)).1.map
      fun c => c.concept).Nodup := by
    rw [pruned_names]
    exact hN
  have hcyc2 : CycName (pruneConcepts (ConceptMapBuilder.addAll records)).1 n := by
    rw [build_eq, validate_concepts] at hcyc
    exact hcyc
  have hstuck := topo_cyc_stuck (lookupSound_addAll records) hN0 n hcyc2
  have hne : (ConceptMapBuilder.topoResult (ConceptMapBuilder.addAll records)).2 ≠ [] := by
    intro he
    rw [he] at hstuck
    exact absurd hstuck (List.not_mem_nil n)
  have hpos : 0 < (ConceptMapBuilder.topoResult (ConceptMapBuilder.addAll records)).2.length :=
    List.length_pos.mpr hne
  have hord : (ConceptMapBuilder.build records).dependency_order =
      (ConceptMapBuilder.topoResult (ConceptMapBuilder.addAll records)).1 := by
    rw [build_eq, validate_order, addAll_dependency_order, List.nil_append]
  refine ⟨hstuck, hne, ?_, ?_, ?_⟩
  · rw [build_eq, validate_errors, if_pos hpos]
    exact List.mem_append_right _ (List.mem_singleton_self _)
  · rw [build_eq, validate_errors, if_pos hpos, List.countP_append, List.countP_append,
      addAll_errors_no_circular, pruneDiags_no_circular]
    simp [isCircularDiag, List.countP_cons]
  · intro x hx
    rw [hord]
    intro hxo
    exact topo_order_disjoint_pending x hxo hx

/-- Witness for C3 at the concrete two-cycle input `A` → `B` → `A`. -/
theorem c3_cycle_detection_witness :
    ((ConceptMapBuilder.addAll cycRecs).concepts.map fun c => c.concept).Nodup ∧
      ['A'] ∈ (ConceptMapBuilder.topoResult (ConceptMapBuilder.addAll cycRecs)).2 :=
  ⟨by decide,
    (c3_cycle_detection cycRecs ['A'] (by decide)
      (Relation.TransGen.head
        (by decide : dependsOn (ConceptMapBuilder.build cycRecs).concepts ['A'] ['B'])
        (Relation.TransGen.single
          (by decide :
            dependsOn (ConceptMapBuilder.build cycRecs).concepts ['B'] ['A'])))).1⟩

/-- Counterexample to C3 as stated: on `dupCycRecs` the resolved dependency
relation has the cycle `A` → `B` → `A`, yet validation ends with an empty
pending set, emits no circular diagnostic, and produces a complete
dependency order — the cycle hides behind two concepts sharing the trimmed
name `A`. -/
theorem c3_cycle_detection_cex :
    Relation.TransGen (dependsOn (ConceptMapBuilder.build dupCycRecs).concepts)
        ['A'] ['A'] ∧
      (ConceptMapBuilder.topoResult (ConceptMapBuilder.addAll dupCycRecs)).2 = [] ∧
      (ConceptMapBuilder.build dupCycRecs).errors.countP isCircularDiag = 0 ∧
      (ConceptMapBuilder.build dupCycRecs).dependency_order = [['A'], ['B']] :=
  ⟨Relation.TransGen.head
      (by decide : dependsOn (ConceptMapBuilder.build dupCycRecs).concepts ['A'] ['B'])
      (Relation.TransGen.single
        (by decide :
          dependsOn (ConceptMapBuilder.build dupCycRecs).concepts ['B'] ['A'])),
    by decide, by decide, by decide⟩

/-- C1 (amended): for every record list whose concepts' names are pairwise
distinct and whose frontier-peeling loop ends with an empty pending set
(i.e. the graph passed validation acyclic with all dependencies resolved),
`solve` succeeds, and the memoized transitive-closure computation assigns
each concept's name the duplicate-free set of exactly the names reachable
from it by following dependency edges, excluding the concept itself; the
concept's updated `earliest_start` equals the sum of the primary-mode
weights of the concepts in that set.  The distinct-names hypothesis is
forced by `c1_closure_earliest_cex`. -/
theorem c1_closure_earliest (records : List ConceptRecord)
    (hN : ((ConceptMapBuilder.addAll records).concepts.map fun c => c.concept).Nodup)
    (hEmpty : (ConceptMapBuilder.topoResult (ConceptMapBuilder.addAll records)).2 = []) :
    ∃ memo m2,
      (ConceptMapBuilder.build records).solve_total_weights.solveClosures
          ((ConceptMapBuilder.build records).concepts.length + 1) = some memo ∧
        (ConceptMapBuilder.build records).solve = some m2 ∧
        m2.concepts = (ConceptMapBuilder.build records).concepts.map
          (solveConceptUpdate memo
            (solveWeights (ConceptMapBuilder.build records).solve_total_weights)) ∧
        ∀ c ∈ (ConceptMapBuilder.build records).concepts,
          ∃ S, alookup memo c.concept = some S ∧ S.Nodup ∧
            (∀ x, x ∈ S ↔ Relation.TransGen
              (dependsOn (ConceptMapBuilder.build records).concepts) c.concept x) ∧
            c.concept ∉ S ∧
            ((solveConceptUpdate memo
                (solveWeights (ConceptMapBuilder.build records).solve_total_weights)
                c).modes 0).range.earliest_start =
              (S.map fun d =>
                (((ConceptMapBuilder.build records).dependency_to_concept d).modes
                  0).weight).sum := by
  have hN0 : ((pruneConcepts (ConceptMapBuilder.addAll records)).1.map
      fun c => c.concept).Nodup := by
    rw [pruned_names]
    exact hN
  obtain ⟨hordN, hordsub0, hcomp0, hro0⟩ :=
    topo_success hN0 (lookupSound_addAll records) hEmpty
  have hconc : (ConceptMapBuilder.build records).concepts =
      (pruneConcepts (ConceptMapBuilder.addAll records)).1 := by
    rw [build_eq, validate_concepts]
  have hs : LookupSound (ConceptMapBuilder.build records) := by
    rw [build_eq]
    exact lookupSound_validate (lookupSound_addAll records)
  have hk : NamesKeyed (ConceptMapBuilder.build records) := by
    rw [build_eq]
    exact namesKeyed_validate (namesKeyed_addAll records)
  have hNmv : ((ConceptMapBuilder.build records).concepts.map
      fun c => c.concept).Nodup := by
    rw [hconc]
    exact hN0
  have hdeps : ∀ c ∈ (ConceptMapBuilder.build records).concepts,
      ∀ d ∈ c.dependencies,
        (alookup (ConceptMapBuilder.build records).lookup d).isSome = true := by
    intro c hc d hd
    rw [build_eq, validate_lookup]
    rw [hconc] at hc
    exact pruned_deps_keyed _ c hc d hd
  have hcomp : ∀ c ∈ (ConceptMapBuilder.build records).concepts,
      c.concept ∈ (ConceptMapBuilder.topoResult (ConceptMapBuilder.addAll records)).1 := by
    intro c hc
    rw [hconc] at hc
    exact hcomp0 c hc
  have hro : RankOrdered (ConceptMapBuilder.build records).concepts
      (ConceptMapBuilder.topoResult (ConceptMapBuilder.addAll records)).1 := by
    rw [hconc]
    exact hro0
  have hordsub : ∀ n ∈ (ConceptMapBuilder.topoResult
      (ConceptMapBuilder.addAll records)).1,
      n ∈ (ConceptMapBuilder.build records).concepts.map fun c => c.concept := by
    intro n hn
    rw [hconc]
    exact hordsub0 n hn
  obtain ⟨memo, m2, hclos, hsolve, hm2, hmain⟩ :=
    solve_correct hs hk hNmv hdeps hcomp hro hordN hordsub
  refine ⟨memo, m2, hclos, hsolve, hm2, ?_⟩
  intro c hc
  obtain ⟨S, hS, ⟨hnod, hiff⟩, hni, heq⟩ := hmain c hc
  exact ⟨S, hS, hnod, hiff, hni, heq⟩

/-- Witness for C1 at the concrete acyclic chain input: the hypotheses hold
by computation and the solver therefore succeeds. -/
theorem c1_closure_earliest_witness :
    (((ConceptMapBuilder.addAll chainRecs).concepts.map fun c => c.concept).Nodup ∧
      (ConceptMapBuilder.topoResult (ConceptMapBuilder.addAll chainRecs)).2 = []) ∧
      ∃ memo m2,
        (ConceptMapBuilder.build chainRecs).solve_total_weights.solveClosures
            ((ConceptMapBuilder.build chainRecs).concepts.length + 1) = some memo ∧
          (ConceptMapBuilder.build chainRecs).solve = some m2 :=
  ⟨⟨by decide, by decide⟩, by
    obtain ⟨memo, m2, hclos, hsolve, _⟩ :=
      c1_closure_earliest chainRecs (by decide) (by decide)
    exact ⟨memo, m2, hclos, hsolve⟩⟩

/-- Counterexample to C1 as stated: `dupRecs` passes validation with no
diagnostics at all (empty pending set, empty error list), yet the concept
at position 0 — named `A` with an empty dependency list, so that no concept
is reachable from it — is assigned the closure set `[B]` through the
name-keyed memo table (whose lookup resolves `A` to the later concept with
the same trimmed name), not the empty set of names reachable from it. -/
theorem c1_closure_earliest_cex :
    (ConceptMapBuilder.topoResult (ConceptMapBuilder.addAll dupRecs)).2 = [] ∧
      (ConceptMapBuilder.build dupRecs).errors = [] ∧
      ((ConceptMapBuilder.build dupRecs).concepts.getD 0 default).concept = ['A'] ∧
      ((ConceptMapBuilder.build dupRecs).concepts.getD 0 default).dependencies = [] ∧
      ((ConceptMapBuilder.build dupRecs).solve_total_weights.solveClosures
          ((ConceptMapBuilder.build dupRecs).concepts.length + 1)).map
        (fun memo => alookup memo ['A']) = some (some [['B']]) := by
  decide

/-- C4 (amended): for every record whose concept name, exactly as written
in the record (untrimmed), is already a key of the lookup (the keys are the
trimmed names of previously inserted concepts), `add` appends one
redundancy diagnostic and discards the record: concept list, lookup and
dependency order are unchanged and only the record counter advances.  The
original claim — keyed on the record's *trimmed* name — is refuted by
`c4_duplicate_rejection_cex`: a raw name differing by whitespace evades the
check. -/
theorem c4_duplicate_rejection (m : ConceptMap) (r : ConceptRecord) (j : Nat)
    (h : alookup m.lookup r.concept = some j) :
    (ConceptMapBuilder.add m r).concepts = m.concepts ∧
      (ConceptMapBuilder.add m r).lookup = m.lookup ∧
      (ConceptMapBuilder.add m r).dependency_order = m.dependency_order ∧
      (ConceptMapBuilder.add m r).nconcepts = m.nconcepts + 1 ∧
      (ConceptMapBuilder.add m r).errors = m.errors ++
        [Diag.redundant r.concept (m.nconcepts + 1)
          ((m.concepts.getD j default).line)] := by
  simp [ConceptMapBuilder.add, h]

/-- Witness for C4 at a concrete exact-name duplicate. -/
theorem c4_duplicate_rejection_witness :
    alookup (ConceptMapBuilder.addAll [oneARec]).lookup oneARec.concept = some 0 ∧
      (ConceptMapBuilder.add (ConceptMapBuilder.addAll [oneARec]) oneARec).concepts =
        (ConceptMapBuilder.addAll [oneARec]).concepts :=
  ⟨by decide,
    (c4_duplicate_rejection (ConceptMapBuilder.addAll [oneARec]) oneARec 0 (by decide)).1⟩

/-- Counterexample to C4 as stated: record 2 of `padARecs` has the same
trimmed name `A` as the already-inserted record 1, yet no redundancy
diagnostic is emitted and a second concept named `A` is inserted — the
duplicate check compares the raw record name (here with a leading space)
against the trimmed stored keys, so the final graph holds two concepts with
the same name. -/
theorem c4_duplicate_rejection_cex :
    strTrim [' ', 'A'] = strTrim ['A'] ∧
      ((ConceptMapBuilder.build padARecs).concepts.map fun c => c.concept) =
        [['A'], ['A']] ∧
      (ConceptMapBuilder.build padARecs).errors = [] := by
  decide

theorem depsFold_eq :
    ∀ (l : List Str) (a : List Str),
      l.foldl (fun a d => if d ≠ [] then a ++ [strTrim d] else a) a =
        a ++ (l.filter fun d => decide (d ≠ [])).map strTrim := by
  intro l
  induction l with
  | nil => intro a; simp
  | cons d t ih =>
    intro a
    by_cases hd : d = []
    · subst hd
      rw [List.foldl_cons, if_neg (by simp), List.filter_cons, ih]
      simp
    · rw [List.foldl_cons, if_pos hd, List.filter_cons, ih]
      simp [hd]

/-- C8 (amended): for every record accepted by `add` (its raw name not yet
a key), the stored dependency list is the raw field split on `;` with the
tokens empty *before trimming* discarded and every remaining token trimmed,
in original order.  A whitespace-only token passes the pre-trim emptiness
check and is stored as the empty string, refuting the original claim's "no
empty-string dependency name is ever stored" (see
`c8_dependency_split_cex`). -/
theorem c8_dependency_split (m : ConceptMap) (r : ConceptRecord)
    (h : alookup m.lookup r.concept = none) :
    ∃ c2, (ConceptMapBuilder.add m r).concepts = m.concepts ++ [c2] ∧
      c2.dependencies =
        ((splitSemi r.dependencies).filter fun d => decide (d ≠ [])).map strTrim := by
  simp only [ConceptMapBuilder.add, h]
  refine ⟨_, rfl, ?_⟩
  show (splitSemi r.dependencies).foldl
      (fun a d => if d ≠ [] then a ++ [strTrim d] else a) [] = _
  rw [depsFold_eq]
  simp

/-- Witness for C8 at a concrete accepted record. -/
theorem c8_dependency_split_witness :
    alookup ConceptMap.new.lookup recA.concept = none ∧
      ∃ c2, (ConceptMapBuilder.add ConceptMap.new recA).concepts =
          ConceptMap.new.concepts ++ [c2] ∧
        c2.dependencies =
          ((splitSemi recA.dependencies).filter fun d => decide (d ≠ [])).map strTrim :=
  ⟨by decide, c8_dependency_split ConceptMap.new recA (by decide)⟩

/-- Counterexample to C8 as stated: the record whose dependency field is a
single space stores the dependency list `[""]` — the whitespace-only token
is non-empty before trimming, so it is kept and trimmed to the empty
string, which is stored. -/
theorem c8_dependency_split_cex :
    ((ConceptMapBuilder.add ConceptMap.new spaceDepRec).concepts.getD 0
        default).dependencies = [[]] ∧
      [] ∈ ((ConceptMapBuilder.add ConceptMap.new spaceDepRec).concepts.getD 0
        default).dependencies := by
  decide

/-- C9 (amended): `Concept::new` carries the three per-mode weights through
(lecture into mode 0, lab into mode 1, hw into mode 2, each defaulting to 0
when absent), but the record's coverage values are NOT carried through:
every constructed modality has coverage 0 regardless of the record (see
`c9_coverage_cex`). -/
theorem c9_modes_weights (r : ConceptRecord) (line : Nat) :
    ((Concept.new r line).modes 0).weight = r.lecture_weight.getD 0 ∧
      ((Concept.new r line).modes 1).weight = r.lab_weight.getD 0 ∧
      ((Concept.new r line).modes 2).weight = r.hw_weight.getD 0 ∧
      ∀ i : Fin 3, ((Concept.new r line).modes i).coverage = 0 := by
  refine ⟨rfl, rfl, rfl, ?_⟩
  intro i
  fin_cases i <;> rfl

/-- Counterexample to C9 as stated: `covRec` carries coverages 5, 7 and 9,
but the constructed concept's three modalities all have coverage 0 — the
record's coverage values are discarded by `Modality::new`, not carried
through. -/
theorem c9_coverage_cex :
    covRec.lecture_coverage = some 5 ∧ covRec.lab_coverage = some 7 ∧
      covRec.hw_coverage = some 9 ∧
      ((Concept.new covRec 1).modes 0).coverage = 0 ∧
      ((Concept.new covRec 1).modes 1).coverage = 0 ∧
      ((Concept.new covRec 1).modes 2).coverage = 0 ∧ (0 : ℚ) ≠ 5 := by
  refine ⟨rfl, rfl, rfl, rfl, rfl, rfl, by norm_num⟩

/-- C7 (code bug): the first record ingested is stored with
`sequence_index` (`line`) 2 rather than 1 — `Concept::new` is passed
`nconcepts + 1` after `nconcepts` was already incremented for this record —
and consequently the redundancy diagnostic for two identical records reads
"redundant copy in record 2, redundant with record 2": the new record is
labeled with its true 1-based number while the original record 1 is
reported with the off-by-one stored value 2. -/
theorem c7_record_numbering_bug :
    ((ConceptMapBuilder.addAll [oneARec]).concepts.getD 0 default).line = 2 ∧
      (ConceptMapBuilder.addAll twoARecs).errors = [Diag.redundant ['A'] 2 2] := by
  decide

theorem cyc_deps_A : (cycMv.dependency_to_concept ['A']).dependencies = [['B']] := by
  decide

theorem cyc_deps_B : (cycMv.dependency_to_concept ['B']).dependencies = [['A']] := by
  decide

theorem solveTC_cyc_aux :
    ∀ (fuel : Nat) (memo : Memo), alookup memo ['A'] = none →
      alookup memo ['B'] = none →
      solveTC cycMv fuel memo ['A'] = none ∧ solveTC cycMv fuel memo ['B'] = none := by
  intro fuel
  induction fuel with
  | zero => intro memo _ _; exact ⟨rfl, rfl⟩
  | succ f ih =>
    intro memo hA hB
    constructor
    · rw [solveTC_succ]
      unfold solveTCStep
      rw [hA, cyc_deps_A]
      rw [if_neg (show ¬([['B']] : List Str) = [] by decide)]
      rw [List.foldl_cons]
      rw [show solveTCFoldStep (solveTC cycMv f) (some (memo, sdedup [['B']])) ['B'] =
          none from by simp only [solveTCFoldStep, (ih memo hA hB).2]]
      rfl
    · rw [solveTC_succ]
      unfold solveTCStep
      rw [hB, cyc_deps_B]
      rw [if_neg (show ¬([['A']] : List Str) = [] by decide)]
      rw [List.foldl_cons]
      rw [show solveTCFoldStep (solveTC cycMv f) (some (memo, sdedup [['A']])) ['A'] =
          none from by simp only [solveTCFoldStep, (ih memo hA hB).1]]
      rfl

/-- C6 (code bug): the closure solver is NOT guarded against a violated
acyclicity precondition.  On the mutually-cyclic input, validation reports
the cycle, but `main` still calls `solve` unconditionally, and
`solve_dependency_transitive_closure` starting from `A` revisits `A` before
any memo entry for it is written: the recursion exceeds every depth bound
(the model returns `none` for every fuel), i.e. the Rust code recurses
without bound instead of returning an error or aborting locally; the whole
program run aborts (`mainSolve` is `none`) and no `earliest_start` is
produced at all. -/
theorem c6_no_cycle_guard :
    cycMv.errs = some [Diag.circular 2 [['A'], ['B']]] ∧
      (∀ fuel, solveTC cycMv fuel [] ['A'] = none) ∧
      (mainSolve cycRecs).isNone = true := by
  refine ⟨by decide, ?_, by decide⟩
  intro fuel
  exact (solveTC_cyc_aux fuel [] rfl rfl).1

/-- Witness for C9 at a concrete record with nonzero coverages. -/
theorem c9_modes_weights_witness :
    ((Concept.new covRec 1).modes 0).weight = covRec.lecture_weight.getD 0 :=
  (c9_modes_weights covRec 1).1

end CMap
